import Mathlib

/-!
Balancing scales.

A shallow embedding of `src/main.cpp`: the line parser and validator
`parse_input_file`, the recursive balancer `balance_scale`, and the output loop
of `main`, followed by the properties proved about them.

Modelling conventions.
* The input file is its sequence of lines, as `std::getline` delivers them;
  opening the file is outside the model.
* `Mass` (`unsigned long long`) and the `size_t` counters are natural numbers,
  every arithmetic result being reduced modulo `2 ^ 64` where it can wrap.
* `std::unordered_map` is an association list with distinct keys; its iteration
  order is unspecified in C++, here it is the order of first insertion.
* `std::map` is an association list kept sorted by key.
* The recursion of `balance_scale` takes a fuel argument that bounds its depth;
  running out of fuel stands for a recursion that does not return.
-/

namespace BalancingScale

/-! ## Data model -/

abbrev ScaleName := String

abbrev Mass := Nat

/-- Number of values of the 64-bit types `unsigned long long` and `size_t`. -/
def WORD : Nat := 2 ^ 64

/-- The variant `std::variant<Mass, ScaleName>`. -/
inductive MassOrScaleName where
  | mass (m : Mass)
  | scale (n : ScaleName)
  deriving DecidableEq, Repr

structure ScaleDescription where
  m_left : MassOrScaleName
  m_right : MassOrScaleName
  deriving DecidableEq, Repr

structure BalanceMasses where
  m_left : Mass
  m_right : Mass
  deriving DecidableEq, Repr

/-- Exceptions thrown by the program, one constructor per `throw` site, carrying
the name or line that the message reports. `outOfRange` is the
`std::out_of_range` of `std::stoull`. The names listed by `multipleIllFormed`
come in the iteration order of an unordered map, which C++ leaves unspecified. -/
inductive Error where
  | failedScaleName (line : String)
  | failedLeftRight (line : String)
  | outOfRange
  | invalidMassOrScaleName (line : String)
  | duplicateScaleName (name : ScaleName)
  | noScaleTree
  | multipleIllFormed (names : List ScaleName)
  | notRootScale (name : ScaleName)
  | unknownScale (name : ScaleName)
  | unexpectedDuplicate (name : ScaleName)
  deriving DecidableEq, Repr

/-! ## Association lists standing for the three maps -/

/-- Keys of a map. -/
def keys {β : Type} (m : List (ScaleName × β)) : List ScaleName := m.map Prod.fst

/-- Lookup by key: `find` of the C++ maps. -/
def find {β : Type} : List (ScaleName × β) → ScaleName → Option β
  | [], _ => none
  | (k, v) :: rest, name => if k = name then some v else find rest name

/-- Insertion `emplace` of `std::unordered_map`: refused (`none`) when the key is
present, otherwise the entry is added. -/
def emplace {β : Type} (m : List (ScaleName × β)) (name : ScaleName) (v : β) :
    Option (List (ScaleName × β)) :=
  match find m name with
  | some _ => none
  | none => some (m ++ [(name, v)])

/-- The order `std::less<std::string>` of the keys of `std::map`: lexicographic
on the characters. -/
def name_lt (a b : ScaleName) : Bool := decide (a.data < b.data)

/-- Position of a new entry in a `std::map`: before the first key that is
greater. -/
def ordered_insert {β : Type} : List (ScaleName × β) → ScaleName → β →
    List (ScaleName × β)
  | [], name, v => [(name, v)]
  | (k, w) :: rest, name, v =>
    if name_lt name k then (name, v) :: (k, w) :: rest
    else (k, w) :: ordered_insert rest name v

/-- Insertion `emplace` of `std::map`: refused (`none`) when the key is present,
otherwise the entry is put at its place in key order. -/
def map_emplace {β : Type} (m : List (ScaleName × β)) (name : ScaleName) (v : β) :
    Option (List (ScaleName × β)) :=
  match find m name with
  | some _ => none
  | none => some (ordered_insert m name v)

abbrev ScaleMap := List (ScaleName × ScaleDescription)

abbrev LinkTracker := List (ScaleName × Nat)

abbrev BalanceMap := List (ScaleName × BalanceMasses)

/-- The update `tracker[name] = f (tracker[name])`, where `operator[]` first
inserts the value `0` for an absent key. -/
def tracker_update (f : Nat → Nat) : LinkTracker → ScaleName → LinkTracker
  | [], name => [(name, f 0)]
  | (k, v) :: rest, name =>
    if k = name then (k, f v) :: rest else (k, v) :: tracker_update f rest name

/-- The post-increment `++` on a `size_t`. -/
def increment (v : Nat) : Nat := (v + 1) % WORD

/-- The post-decrement `--` on a `size_t`: `0` wraps to `2 ^ 64 - 1`. -/
def decrement (v : Nat) : Nat := (v + WORD - 1) % WORD

/-! ## Characters and tokens -/

/-- The `std::isdigit` of the C locale. -/
def isdigit (c : Char) : Bool := decide (48 ≤ c.toNat) && decide (c.toNat ≤ 57)

/-- The `std::isalpha` of the C locale. -/
def isalpha (c : Char) : Bool :=
  (decide (65 ≤ c.toNat) && decide (c.toNat ≤ 90)) ||
  (decide (97 ≤ c.toNat) && decide (c.toNat ≤ 122))

/-- The `std::isspace` of the C locale: space, and the characters 9 to 13. -/
def isspace (c : Char) : Bool :=
  decide (c.toNat = 32) || (decide (9 ≤ c.toNat) && decide (c.toNat ≤ 13))

/-- The extraction `iss >> token`: leading whitespace is skipped, then the
maximal run of non-whitespace characters is read; it fails when that run is
empty. Returns the token and the rest of the stream. -/
def extract (s : List Char) : Option (String × List Char) :=
  match s.dropWhile isspace with
  | [] => none
  | c :: cs =>
    some (String.mk ((c :: cs).takeWhile (fun x => !isspace x)),
          (c :: cs).dropWhile (fun x => !isspace x))

/-- Value of a run of decimal digits. -/
def decimal_value (ds : List Char) : Nat :=
  ds.foldl (fun acc c => 10 * acc + (c.toNat - 48)) 0

/-- The conversion `std::stoull` on a token that starts with a digit (its only
call site): the maximal leading run of decimal digits is converted, and
`std::out_of_range` is thrown when the value does not fit 64 bits. -/
def stoull (s : String) : Except Error Mass :=
  let v := decimal_value (s.data.takeWhile isdigit)
  if v < WORD then .ok v else .error .outOfRange

/-! ## The parser `parse_input_file` -/

/-- The two maps that the reading loop builds. -/
structure ParseState where
  scale_map : ScaleMap
  scale_link_tracker : LinkTracker
  deriving DecidableEq, Repr

/-- The test `line.empty() || line[0] == '#'` of a skipped line. -/
def is_skipped (line : String) : Bool :=
  match line.data with
  | [] => true
  | c :: _ => c == '#'

/-- The call `std::replace(line.begin(), line.end(), ',', ' ')`. -/
def replace_commas (line : String) : String :=
  String.mk (line.data.map (fun c => if c = ',' then ' ' else c))

/-- One turn of the loop `for (int i = 0; i < 2; i++)`: the pan token is
classified by its first character; a reference decrements its counter. An empty
token cannot come out of `extract`; its first character reads as the string
terminator, which is neither a digit nor a letter. -/
def read_pan (line : String) (tracker : LinkTracker) (tok : String) :
    Except Error (MassOrScaleName × LinkTracker) :=
  match tok.data with
  | [] => .error (.invalidMassOrScaleName line)
  | c :: _ =>
    if isdigit c then
      match stoull tok with
      | .ok m => .ok (.mass m, tracker)
      | .error e => .error e
    else if isalpha c then
      .ok (.scale tok, tracker_update decrement tracker tok)
    else .error (.invalidMassOrScaleName line)

/-- The body of the loop `while (std::getline(file, line))`. -/
def process_line (st : ParseState) (line0 : String) : Except Error ParseState :=
  if is_skipped line0 then .ok st
  else
    let line := replace_commas line0
    match extract line.data with
    | none => .error (.failedScaleName line)
    | some (scale_name, rest1) =>
      let tracker1 := tracker_update increment st.scale_link_tracker scale_name
      match extract rest1 with
      | none => .error (.failedLeftRight line)
      | some (left_str, rest2) =>
        match extract rest2 with
        | none => .error (.failedLeftRight line)
        | some (right_str, _) =>
          match read_pan line tracker1 left_str with
          | .error e => .error e
          | .ok (left, tracker2) =>
            match read_pan line tracker2 right_str with
            | .error e => .error e
            | .ok (right, tracker3) =>
              match emplace st.scale_map scale_name ⟨left, right⟩ with
              | none => .error (.duplicateScaleName scale_name)
              | some scale_map => .ok ⟨scale_map, tracker3⟩

/-- The whole reading loop, from a given state. -/
def parse_lines : ParseState → List String → Except Error ParseState
  | st, [] => .ok st
  | st, line :: rest =>
    match process_line st line with
    | .error e => .error e
    | .ok st1 => parse_lines st1 rest

/-- The vector `ill_formed_scales`: the counters that are not zero. -/
def ill_formed_scales (tracker : LinkTracker) : List (ScaleName × Nat) :=
  tracker.filter (fun p => p.2 ≠ 0)

/-- The checks that follow the reading loop (lines 95 to 123). -/
def find_root (st : ParseState) : Except Error (ScaleMap × ScaleName) :=
  match st.scale_map with
  | [] => .error .noScaleTree
  | _ :: _ =>
    match ill_formed_scales st.scale_link_tracker with
    | [(name, count)] =>
      if count ≠ 1 then .error (.notRootScale name) else .ok (st.scale_map, name)
    | ill => .error (.multipleIllFormed (keys ill))

/-- The function `parse_input_file`, on the lines of the opened file. -/
def parse_input_file (lines : List String) : Except Error (ScaleMap × ScaleName) :=
  match parse_lines ⟨[], []⟩ lines with
  | .error e => .error e
  | .ok st => find_root st

/-! ## The balancer `balance_scale` -/

/-- Result of a computation that may throw or may not return. -/
inductive Outcome (α : Type) where
  | ok (a : α)
  | error (e : Error)
  | outOfFuel
  deriving DecidableEq, Repr

/-- The lambda `get_side_mass`, given the recursive call it captures. -/
def get_side_mass (recurse : ScaleName → BalanceMap → Outcome (Mass × BalanceMap))
    (mass_or_scale : MassOrScaleName) (balance_masses : BalanceMap) :
    Outcome (Mass × BalanceMap) :=
  match mass_or_scale with
  | .mass m => .ok (m, balance_masses)
  | .scale scale_name => recurse scale_name balance_masses

/-- The function `balance_scale`; the map `balance_masses`, passed by reference in
the source, is threaded through. The fuel bounds the depth of the recursion. -/
def balance_scale : Nat → ScaleMap → ScaleName → BalanceMap → Outcome (Mass × BalanceMap)
  | 0, _, _, _ => .outOfFuel
  | fuel + 1, scale_map, scale_name, balance_masses =>
    match find scale_map scale_name with
    | none => .error (.unknownScale scale_name)
    | some d =>
      match get_side_mass (balance_scale fuel scale_map) d.m_left balance_masses with
      | .error e => .error e
      | .outOfFuel => .outOfFuel
      | .ok (left_mass, bm1) =>
        match get_side_mass (balance_scale fuel scale_map) d.m_right bm1 with
        | .error e => .error e
        | .outOfFuel => .outOfFuel
        | .ok (right_mass, bm2) =>
          let additional_right_mass := if left_mass > right_mass then left_mass - right_mass else 0
          let additional_left_mass := if left_mass < right_mass then right_mass - left_mass else 0
          match map_emplace bm2 scale_name ⟨additional_left_mass, additional_right_mass⟩ with
          | none => .error (.unexpectedDuplicate scale_name)
          | some bm3 => .ok ((max left_mass right_mass * 2 + 1) % WORD, bm3)

/-! ## The output loop of `main` -/

/-- Decimal digits of a number, least significant first, the fuel bounding their
number. -/
def decimal_digits : Nat → Nat → List Char
  | 0, _ => []
  | fuel + 1, n =>
    Char.ofNat (48 + n % 10) :: (if n / 10 = 0 then [] else decimal_digits fuel (n / 10))

/-- The insertion `std::cout << mass` of an unsigned integer. -/
def print_mass (m : Mass) : String := String.mk (decimal_digits (m + 1) m).reverse

/-- One output line `name,left,right`. -/
def output_line (entry : ScaleName × BalanceMasses) : String :=
  entry.1 ++ "," ++ print_mass entry.2.m_left ++ "," ++ print_mass entry.2.m_right

/-- The function `main` once the file is open: the lines written to the standard
output, in the iteration order of the ordered map. -/
def main (fuel : Nat) (lines : List String) : Outcome (List String) :=
  match parse_input_file lines with
  | .error e => .error e
  | .ok (scale_map, root_scale_name) =>
    match balance_scale fuel scale_map root_scale_name [] with
    | .error e => .error e
    | .outOfFuel => .outOfFuel
    | .ok (_, balance_masses) => .ok (balance_masses.map output_line)

/-! ## Notions in which the properties are stated -/

/-- The name referenced by a pan, if any. -/
def pan_ref : MassOrScaleName → List ScaleName
  | .scale n => [n]
  | .mass _ => []

/-- The names referenced by the pans of a scale, left pan first. -/
def pan_refs (d : ScaleDescription) : List ScaleName := pan_ref d.m_left ++ pan_ref d.m_right

/-- The counter of a name in the tracker, `0` when the name is absent. -/
def counter (tracker : LinkTracker) (name : ScaleName) : Nat := (find tracker name).getD 0

/-- All pan references of a scale map, with repetitions. -/
def map_refs : ScaleMap → List ScaleName
  | [] => []
  | (_, d) :: rest => pan_refs d ++ map_refs rest

/-- A pan of the scale `p` holds the scale `c`. -/
def References (scale_map : ScaleMap) (p c : ScaleName) : Prop :=
  ∃ d, find scale_map p = some d ∧ c ∈ pan_refs d

/-- The scale `b` is reached from `a` by following pan references, `a` itself
included. -/
def Reachable (scale_map : ScaleMap) (a b : ScaleName) : Prop :=
  Relation.ReflTransGen (References scale_map) a b

/-- The scale `a` lies on a cycle of pan references. -/
def OnCycle (scale_map : ScaleMap) (a : ScaleName) : Prop :=
  Relation.TransGen (References scale_map) a a

/-- The first three tokens of a line that is not skipped, or fewer when the line
has fewer. -/
def fields (line0 : String) : List String :=
  if is_skipped line0 then []
  else
    match extract (replace_commas line0).data with
    | none => []
    | some (t1, rest1) =>
      match extract rest1 with
      | none => [t1]
      | some (t2, rest2) =>
        match extract rest2 with
        | none => [t1, t2]
        | some (t3, _) => [t1, t2, t3]

/-- The scale name that a line declares: its first token. -/
def declared_name (line : String) : Option ScaleName := (fields line).head?

/-- The names declared by the lines of the input, in order. -/
def declared_names (lines : List String) : List ScaleName := lines.filterMap declared_name

/-- A pan token that reads as a reference: its first character is a letter. -/
def is_reference (tok : String) : Bool :=
  match tok.data with
  | [] => false
  | c :: _ => isalpha c

/-- A pan token that reads as a mass that fits 64 bits. -/
def is_mass_in_range (tok : String) : Bool :=
  match tok.data with
  | [] => false
  | c :: _ => isdigit c && decide (decimal_value (tok.data.takeWhile isdigit) < WORD)

/-- The pan references of the input, in order and with repetitions: the second
and third tokens that start with a letter. -/
def pan_reference_list : List String → List ScaleName
  | [] => []
  | line :: rest => ((fields line).drop 1).filter is_reference ++ pan_reference_list rest

/-- Number of pan references in the input. -/
def pan_references (lines : List String) : Nat := (pan_reference_list lines).length

/-- Number of times a name occurs as a pan reference in the input. -/
def reference_count (lines : List String) (name : ScaleName) : Nat :=
  (pan_reference_list lines).count name

/-- A line that is individually well formed: skipped, or made of a name and two
pan tokens that each start with a digit (the mass being in range) or a letter. -/
def well_formed (line : String) : Bool :=
  is_skipped line ||
  match fields line with
  | [_, l, r] => (is_mass_in_range l || is_reference l) && (is_mass_in_range r || is_reference r)
  | _ => false

/-- The first name of a list that repeats an earlier one, `seen` holding the
names met before the list. -/
def first_repeated (seen : List ScaleName) : List ScaleName → Option ScaleName
  | [] => none
  | x :: rest => if x ∈ seen then some x else first_repeated (seen ++ [x]) rest

/-- The net counter of a name as the specification keeps it: declarations minus
references, a signed integer. -/
def net_counter (lines : List String) (name : ScaleName) : Int :=
  ((declared_names lines).count name : Int) - (reference_count lines name : Int)

/-- The names that the input mentions, each once. -/
def mentioned_names (lines : List String) : List ScaleName :=
  (declared_names lines ++ pan_reference_list lines).dedup

/-- The names whose net counter is not zero. -/
def nonzero_names (lines : List String) : List ScaleName :=
  (mentioned_names lines).filter (fun n => net_counter lines n ≠ 0)

/-- The names whose net counter is not zero in 64-bit arithmetic. -/
def nonzero_names_wrapped (lines : List String) : List ScaleName :=
  (mentioned_names lines).filter (fun n => net_counter lines n % (WORD : Int) ≠ 0)

/-! ## Paths in a scale map -/

/-- The pan of a scale on a side: `false` for the left, `true` for the right. -/
def side_pan (d : ScaleDescription) (side : Bool) : MassOrScaleName :=
  if side then d.m_right else d.m_left

/-- The scale held by the pan of `name` on the given side, if that pan holds one. -/
def child (scale_map : ScaleMap) (name : ScaleName) (side : Bool) : Option ScaleName :=
  match find scale_map name with
  | none => none
  | some d =>
    match side_pan d side with
    | .scale c => some c
    | .mass _ => none

/-- The scale at the end of a path of sides that starts at `start`; the head of the
list is the last step of the path. -/
def descend (scale_map : ScaleMap) (start : ScaleName) : List Bool → Option ScaleName
  | [] => some start
  | side :: path =>
    match descend scale_map start path with
    | none => none
    | some n => child scale_map n side

/-! ## Invariants of the reading loop -/

/-- The tracker is a map, its keys being distinct, and holds 64-bit values. -/
def TrackerOK (tracker : LinkTracker) : Prop :=
  (keys tracker).Nodup ∧ ∀ p ∈ tracker, p.2 < WORD

/-- Every counter is, modulo `2 ^ 64`, the number of declarations of its name in
`decls` minus the number of its references in `refs`. -/
def Counts (tracker : LinkTracker) (decls refs : List ScaleName) : Prop :=
  ∀ n, (counter tracker n + refs.count n) % WORD = decls.count n % WORD

/-- The state of the reading loop agrees with the lines read: the scale map has
distinct keys, and the tracker counts its declarations and references. -/
def StateOK (st : ParseState) : Prop :=
  (keys st.scale_map).Nodup ∧ TrackerOK st.scale_link_tracker ∧
    Counts st.scale_link_tracker (keys st.scale_map) (map_refs st.scale_map)

/-- The shape that the counters check on a scale map: distinct names, a declared
root that no pan references, every other declared scale referenced by exactly one
pan, and no reference to an undeclared name. -/
def Validated (scale_map : ScaleMap) (root : ScaleName) : Prop :=
  (keys scale_map).Nodup ∧ root ∈ keys scale_map ∧ (map_refs scale_map).count root = 0 ∧
    (∀ n ∈ keys scale_map, n ≠ root → (map_refs scale_map).count n = 1) ∧
    ∀ n ∈ map_refs scale_map, n ∈ keys scale_map

/-! ## Notions for the classification of pan tokens -/

/-- A token whose first character is a decimal digit. -/
def starts_with_digit (tok : String) : Bool :=
  match tok.data with
  | [] => false
  | c :: _ => isdigit c

/-- The pan that a token denotes when it is classified by its first character alone:
for a digit the mass that its leading run of digits spells, otherwise the reference
to the scale named by the whole token. -/
def token_pan (tok : String) : MassOrScaleName :=
  if starts_with_digit tok then .mass (decimal_value (tok.data.takeWhile isdigit))
  else .scale tok

/-- A line made only of whitespace characters, and not of zero length. -/
def is_blank (line : String) : Bool :=
  !line.data.isEmpty && line.data.all isspace

/-! ## Root detection as the specification words it -/

/-- Root detection with the signed counter of the specification: the names whose
net counter is not zero are collected; the input is rejected unless there is exactly
one, and unless its counter is `+1`; that name is the root. -/
def spec_find_root (lines : List String) (scale_map : ScaleMap) :
    Except Error (ScaleMap × ScaleName) :=
  match nonzero_names lines with
  | [name] =>
    if net_counter lines name ≠ 1 then .error (.notRootScale name)
    else .ok (scale_map, name)
  | names => .error (.multipleIllFormed names)

/-- The parser with the root detection of the specification in place of the one of
the code; the reading loop and the test for an empty tree are those of the code. -/
def spec_parse_input_file (lines : List String) : Except Error (ScaleMap × ScaleName) :=
  match parse_lines ⟨[], []⟩ lines with
  | .error e => .error e
  | .ok st =>
    match st.scale_map with
    | [] => .error .noScaleTree
    | _ :: _ => spec_find_root lines st.scale_map

/-- Two outcomes of the parser agree: the same map and root, or the same error, the
names listed by the multiple-ill-formed-scales error being compared up to their
order. -/
def SameOutcome : Except Error (ScaleMap × ScaleName) → Except Error (ScaleMap × ScaleName) → Prop
  | .ok a, .ok b => a = b
  | .error (.multipleIllFormed names1), .error (.multipleIllFormed names2) => names1.Perm names2
  | .error e1, .error e2 => e1 = e2
  | _, _ => False


end BalancingScale

namespace BalancingScale

/-! ## Lemmas on the maps -/

theorem find_eq_none_iff {β : Type} (m : List (ScaleName × β)) (name : ScaleName) :
    find m name = none ↔ name ∉ keys m := by
  induction m with
  | nil => simp [find, keys]
  | cons e rest ih =>
    obtain ⟨k, w⟩ := e
    by_cases hk : k = name
    · simp [find, keys, hk]
    · simp only [find, hk, if_false, ih, keys, List.map_cons, List.mem_cons]
      constructor
      · rintro h (h1 | h1)
        · exact hk h1.symm
        · exact h h1
      · intro h h1
        exact h (Or.inr h1)

theorem find_some_mem_keys {β : Type} (m : List (ScaleName × β)) (name : ScaleName) (v : β)
    (h : find m name = some v) : name ∈ keys m := by
  by_contra hn
  rw [(find_eq_none_iff m name).2 hn] at h
  exact absurd h (by simp)

theorem mem_keys_find {β : Type} (m : List (ScaleName × β)) (name : ScaleName)
    (h : name ∈ keys m) : ∃ v, find m name = some v := by
  cases hf : find m name with
  | none => exact absurd h ((find_eq_none_iff m name).1 hf)
  | some v => exact ⟨v, rfl⟩

theorem keys_ordered_insert {β : Type} (m : List (ScaleName × β)) (name : ScaleName) (v : β) :
    (keys (ordered_insert m name v)).Perm (name :: keys m) := by
  induction m with
  | nil => simp [ordered_insert, keys]
  | cons e rest ih =>
    obtain ⟨k, w⟩ := e
    simp only [ordered_insert]
    split
    · simp [keys]
    · simp only [keys, List.map_cons] at ih ⊢
      exact (List.Perm.cons k ih).trans (List.Perm.swap name k _)

theorem find_ordered_insert_ne {β : Type} (m : List (ScaleName × β)) (name : ScaleName) (v : β)
    (k : ScaleName) (h : name ≠ k) : find (ordered_insert m name v) k = find m k := by
  induction m with
  | nil => simp [ordered_insert, find, h]
  | cons e rest ih =>
    obtain ⟨k0, w⟩ := e
    simp only [ordered_insert]
    split
    · simp [find, h]
    · simp [find, ih]

theorem find_ordered_insert_self {β : Type} (m : List (ScaleName × β)) (name : ScaleName) (v : β)
    (h : find m name = none) : find (ordered_insert m name v) name = some v := by
  induction m with
  | nil => simp [ordered_insert, find]
  | cons e rest ih =>
    obtain ⟨k0, w⟩ := e
    simp only [find] at h
    split at h
    · exact absurd h (by simp)
    · rename_i hne
      simp only [ordered_insert]
      split
      · simp [find]
      · simp [find, hne, ih h]

/-- What a successful `emplace` into the ordered map does. -/
theorem map_emplace_some {β : Type} (m m' : List (ScaleName × β)) (name : ScaleName) (v : β)
    (h : map_emplace m name v = some m') :
    name ∉ keys m ∧ find m' name = some v ∧ (keys m').Perm (name :: keys m) ∧
      ∀ k w, find m k = some w → find m' k = some w := by
  unfold map_emplace at h
  cases hf : find m name with
  | some w => rw [hf] at h; exact absurd h (by simp)
  | none =>
    rw [hf] at h
    simp only [Option.some.injEq] at h
    subst h
    refine ⟨(find_eq_none_iff m name).1 hf, find_ordered_insert_self m name v hf,
      keys_ordered_insert m name v, ?_⟩
    intro k w hk
    have hne : name ≠ k := by
      rintro rfl
      rw [hf] at hk
      exact absurd hk (by simp)
    rw [find_ordered_insert_ne m name v k hne]
    exact hk

theorem map_emplace_of_not_mem {β : Type} (m : List (ScaleName × β)) (name : ScaleName) (v : β)
    (h : name ∉ keys m) : map_emplace m name v = some (ordered_insert m name v) := by
  unfold map_emplace
  rw [(find_eq_none_iff m name).2 h]

/-! ## Lemmas on `balance_scale` -/

/-- A successful call at positive fuel, read off the body of the function. -/
theorem balance_scale_succ_ok (fuel : Nat) (sm : ScaleMap) (name : ScaleName)
    (bm bm' : BalanceMap) (w : Mass) (h : balance_scale (fuel + 1) sm name bm = .ok (w, bm')) :
    ∃ d l bm1 r bm2, find sm name = some d ∧
      get_side_mass (balance_scale fuel sm) d.m_left bm = .ok (l, bm1) ∧
      get_side_mass (balance_scale fuel sm) d.m_right bm1 = .ok (r, bm2) ∧
      map_emplace bm2 name ⟨if l < r then r - l else 0, if l > r then l - r else 0⟩ = some bm' ∧
      w = (max l r * 2 + 1) % WORD := by
  simp only [balance_scale] at h
  split at h
  · exact absurd h (by simp)
  · rename_i d hf
    split at h
    · exact absurd h (by simp)
    · exact absurd h (by simp)
    · rename_i l bm1 hl
      split at h
      · exact absurd h (by simp)
      · exact absurd h (by simp)
      · rename_i r bm2 hr
        split at h
        · exact absurd h (by simp)
        · rename_i bm3 he
          simp only [Outcome.ok.injEq, Prod.mk.injEq] at h
          obtain ⟨h1, h2⟩ := h
          subst h2
          exact ⟨d, l, bm1, r, bm2, hf, hl, hr, he, h1.symm⟩

/-- The body of the function when every step succeeds. -/
theorem balance_scale_succ_of (fuel : Nat) (sm : ScaleMap) (name : ScaleName)
    (bm bm1 bm2 bm' : BalanceMap) (d : ScaleDescription) (l r : Mass)
    (hf : find sm name = some d)
    (hl : get_side_mass (balance_scale fuel sm) d.m_left bm = .ok (l, bm1))
    (hr : get_side_mass (balance_scale fuel sm) d.m_right bm1 = .ok (r, bm2))
    (he : map_emplace bm2 name ⟨if l < r then r - l else 0, if l > r then l - r else 0⟩
      = some bm') :
    balance_scale (fuel + 1) sm name bm = .ok ((max l r * 2 + 1) % WORD, bm') := by
  simp only [balance_scale, hf, hl, hr, he]

theorem mem_pan_refs (d : ScaleDescription) (c : ScaleName) :
    c ∈ pan_refs d ↔ d.m_left = .scale c ∨ d.m_right = .scale c := by
  obtain ⟨l, r⟩ := d
  cases l <;> cases r <;> simp [pan_refs, pan_ref, eq_comm]

theorem reachable_iff (sm : ScaleMap) (n k : ScaleName) :
    Reachable sm n k ↔ k = n ∨ ∃ c, References sm n c ∧ Reachable sm c k := by
  constructor
  · intro h
    rcases Relation.ReflTransGen.cases_head h with h1 | ⟨c, h1, h2⟩
    · exact Or.inl h1.symm
    · exact Or.inr ⟨c, h1, h2⟩
  · rintro (h | ⟨c, h1, h2⟩)
    · subst h
      exact Relation.ReflTransGen.refl
    · exact Relation.ReflTransGen.head h1 h2

/-- Entries of the result are never overwritten, and the keys that a successful
call adds are the scales reachable from its argument. -/
theorem balance_scale_keys (fuel : Nat) (sm : ScaleMap) :
    ∀ (name : ScaleName) (bm bm' : BalanceMap) (w : Mass),
      balance_scale fuel sm name bm = .ok (w, bm') →
      (∀ k v, find bm k = some v → find bm' k = some v) ∧
      (∀ k, k ∈ keys bm' ↔ k ∈ keys bm ∨ Reachable sm name k) := by
  induction fuel with
  | zero => intro name bm bm' w h; simp [balance_scale] at h
  | succ fuel ih =>
    intro name bm bm' w h
    obtain ⟨d, l, bm1, r, bm2, hf, hl, hr, he, -⟩ := balance_scale_succ_ok fuel sm name bm bm' w h
    have side : ∀ (p : MassOrScaleName) (b b' : BalanceMap) (x : Mass),
        get_side_mass (balance_scale fuel sm) p b = .ok (x, b') →
        (∀ k v, find b k = some v → find b' k = some v) ∧
        (∀ k, k ∈ keys b' ↔ k ∈ keys b ∨ ∃ c, p = .scale c ∧ Reachable sm c k) := by
      intro p b b' x hp
      cases p with
      | mass m =>
        simp only [get_side_mass, Outcome.ok.injEq, Prod.mk.injEq] at hp
        obtain ⟨-, rfl⟩ := hp
        simp
      | scale c =>
        simp only [get_side_mass] at hp
        obtain ⟨h1, h2⟩ := ih c b b' x hp
        refine ⟨h1, fun k => ?_⟩
        rw [h2 k]
        simp
    obtain ⟨pl, kl⟩ := side _ _ _ _ hl
    obtain ⟨pr, kr⟩ := side _ _ _ _ hr
    obtain ⟨-, -, hperm, pe⟩ := map_emplace_some _ _ _ _ he
    refine ⟨fun k v hk => pe k v (pr k v (pl k v hk)), fun k => ?_⟩
    rw [hperm.mem_iff, List.mem_cons, kr k, kl k, reachable_iff sm name k]
    constructor
    · rintro (h1 | (h1 | ⟨c, hc, hck⟩) | ⟨c, hc, hck⟩)
      · exact Or.inr (Or.inl h1)
      · exact Or.inl h1
      · exact Or.inr (Or.inr ⟨c, ⟨d, hf, (mem_pan_refs d c).2 (Or.inl hc)⟩, hck⟩)
      · exact Or.inr (Or.inr ⟨c, ⟨d, hf, (mem_pan_refs d c).2 (Or.inr hc)⟩, hck⟩)
    · rintro (h1 | h1 | ⟨c, ⟨d', hf', hc⟩, hck⟩)
      · exact Or.inr (Or.inl (Or.inl h1))
      · exact Or.inl h1
      · rw [hf] at hf'
        simp only [Option.some.injEq] at hf'
        subst hf'
        rcases (mem_pan_refs d c).1 hc with hc | hc
        · exact Or.inr (Or.inl (Or.inr ⟨c, hc, hck⟩))
        · exact Or.inr (Or.inr ⟨c, hc, hck⟩)

/-- The keys of the result stay distinct. -/
theorem balance_scale_nodup (fuel : Nat) (sm : ScaleMap) :
    ∀ (name : ScaleName) (bm bm' : BalanceMap) (w : Mass),
      balance_scale fuel sm name bm = .ok (w, bm') → (keys bm).Nodup → (keys bm').Nodup := by
  induction fuel with
  | zero => intro name bm bm' w h; simp [balance_scale] at h
  | succ fuel ih =>
    intro name bm bm' w h hn
    obtain ⟨d, l, bm1, r, bm2, hf, hl, hr, he, -⟩ := balance_scale_succ_ok fuel sm name bm bm' w h
    have side : ∀ (p : MassOrScaleName) (b b' : BalanceMap) (x : Mass),
        get_side_mass (balance_scale fuel sm) p b = .ok (x, b') →
        (keys b).Nodup → (keys b').Nodup := by
      intro p b b' x hp hb
      cases p with
      | mass m =>
        simp only [get_side_mass, Outcome.ok.injEq, Prod.mk.injEq] at hp
        obtain ⟨-, rfl⟩ := hp
        exact hb
      | scale c => exact ih c b b' x hp hb
    obtain ⟨hnot, -, hperm, -⟩ := map_emplace_some _ _ _ _ he
    rw [hperm.nodup_iff, List.nodup_cons]
    exact ⟨hnot, side _ _ _ _ hr (side _ _ _ _ hl hn)⟩

/-! ## The masses recorded for a scale -/

/-- C1: on every call of `balance_scale` that returns normally, with `left_weight`
and `right_weight` the resolved weights of the two pans (what `get_side_mass`
gives: the literal mass or the value of the recursive call), the pair recorded
for the scale adds mass to at most one side, levels the two sides, and is
`add_right = max(0, left_weight - right_weight)`,
`add_left = max(0, right_weight - left_weight)`; the entry is the one found in
the result of the call, earlier entries being kept unchanged. -/
theorem recorded_masses_level_the_scale (fuel : Nat) (sm : ScaleMap) (name : ScaleName)
    (bm bm' : BalanceMap) (w : Mass) (h : balance_scale fuel sm name bm = .ok (w, bm')) :
    ∃ fuel' d left_weight bm1 right_weight bm2 added,
      fuel = fuel' + 1 ∧ find sm name = some d ∧
      get_side_mass (balance_scale fuel' sm) d.m_left bm = .ok (left_weight, bm1) ∧
      get_side_mass (balance_scale fuel' sm) d.m_right bm1 = .ok (right_weight, bm2) ∧
      find bm' name = some added ∧
      (added.m_left = 0 ∨ added.m_right = 0) ∧
      left_weight + added.m_left = right_weight + added.m_right ∧
      (added.m_right : Int) = max 0 ((left_weight : Int) - (right_weight : Int)) ∧
      (added.m_left : Int) = max 0 ((right_weight : Int) - (left_weight : Int)) ∧
      ∀ k v, find bm k = some v → find bm' k = some v := by
  cases fuel with
  | zero => simp [balance_scale] at h
  | succ fuel =>
    obtain ⟨d, l, bm1, r, bm2, hf, hl, hr, he, -⟩ := balance_scale_succ_ok fuel sm name bm bm' w h
    obtain ⟨-, hfind, -, -⟩ := map_emplace_some _ _ _ _ he
    refine ⟨fuel, d, l, bm1, r, bm2, _, rfl, hf, hl, hr, hfind, ?_, ?_, ?_, ?_,
      (balance_scale_keys (fuel + 1) sm name bm bm' w h).1⟩
    · by_cases hlr : l < r
      · right; simp [hlr, Nat.lt_asymm hlr]
      · left; simp [hlr]
    · dsimp only
      unfold Mass at *
      split_ifs <;> omega
    · dsimp only
      unfold Mass at *
      rcases Nat.lt_or_ge r l with hlr | hlr
      · rw [if_pos hlr, max_eq_right (by omega)]
        omega
      · rw [if_neg (by omega), max_eq_left (by omega)]
        rfl
    · dsimp only
      unfold Mass at *
      rcases Nat.lt_or_ge l r with hlr | hlr
      · rw [if_pos hlr, max_eq_right (by omega)]
        omega
      · rw [if_neg (by omega), max_eq_left (by omega)]
        rfl

/-- Instances of C1: pans `(10, 3)` give `(0, 7)`, pans `(3, 10)` give `(7, 0)`,
equal pans give `(0, 0)`. -/
theorem recorded_masses_level_the_scale_witness :
    balance_scale 1 [("s", ⟨.mass 10, .mass 3⟩)] "s" [] = .ok (21, [("s", ⟨0, 7⟩)]) ∧
    balance_scale 1 [("s", ⟨.mass 3, .mass 10⟩)] "s" [] = .ok (21, [("s", ⟨7, 0⟩)]) ∧
    balance_scale 1 [("s", ⟨.mass 4, .mass 4⟩)] "s" [] = .ok (9, [("s", ⟨0, 0⟩)]) ∧
    ∃ fuel' d left_weight bm1 right_weight bm2 added,
      1 = fuel' + 1 ∧ find [("s", (⟨.mass 10, .mass 3⟩ : ScaleDescription))] "s" = some d ∧
      get_side_mass (balance_scale fuel' [("s", ⟨.mass 10, .mass 3⟩)]) d.m_left []
        = .ok (left_weight, bm1) ∧
      get_side_mass (balance_scale fuel' [("s", ⟨.mass 10, .mass 3⟩)]) d.m_right bm1
        = .ok (right_weight, bm2) ∧
      find [("s", (⟨0, 7⟩ : BalanceMasses))] "s" = some added ∧
      (added.m_left = 0 ∨ added.m_right = 0) ∧
      left_weight + added.m_left = right_weight + added.m_right ∧
      (added.m_right : Int) = max 0 ((left_weight : Int) - (right_weight : Int)) ∧
      (added.m_left : Int) = max 0 ((right_weight : Int) - (left_weight : Int)) ∧
      ∀ k v, find ([] : BalanceMap) k = some v →
        find [("s", (⟨0, 7⟩ : BalanceMasses))] k = some v :=
  ⟨by decide, by decide, by decide,
    recorded_masses_level_the_scale 1 [("s", ⟨.mass 10, .mass 3⟩)] "s" [] [("s", ⟨0, 7⟩)] 21
      (by decide)⟩

/-! ## The effective weight -/

/-- C7, counterexample: the single scale `a 9223372036854775808 0` is accepted,
its pans weigh `2 ^ 63` and `0`, and the effective weight returned is `1`, not
`2 * 2 ^ 63 + 1`, and not greater than the left weight. -/
theorem effective_weight_wraps :
    parse_input_file ["a 9223372036854775808 0"]
      = .ok ([("a", ⟨.mass 9223372036854775808, .mass 0⟩)], "a") ∧
    balance_scale 1 [("a", ⟨.mass 9223372036854775808, .mass 0⟩)] "a" []
      = .ok (1, [("a", ⟨0, 9223372036854775808⟩)]) ∧
    (1 : Nat) ≠ 2 * max 9223372036854775808 0 + 1 ∧ ¬ (9223372036854775808 < (1 : Nat)) :=
  ⟨rfl, by decide, by decide, by decide⟩

/-- C7, amended: the effective weight returned is `2 * max(left, right) + 1`
reduced modulo `2 ^ 64`; when both pan weights are below `2 ^ 63` it is the exact
integer and is strictly greater than both pan weights. -/
theorem effective_weight_modulo (fuel : Nat) (sm : ScaleMap) (name : ScaleName)
    (bm bm' : BalanceMap) (w : Mass) (h : balance_scale fuel sm name bm = .ok (w, bm')) :
    ∃ fuel' d left_weight bm1 right_weight bm2,
      fuel = fuel' + 1 ∧ find sm name = some d ∧
      get_side_mass (balance_scale fuel' sm) d.m_left bm = .ok (left_weight, bm1) ∧
      get_side_mass (balance_scale fuel' sm) d.m_right bm1 = .ok (right_weight, bm2) ∧
      w = (2 * max left_weight right_weight + 1) % 2 ^ 64 ∧
      (left_weight < 2 ^ 63 → right_weight < 2 ^ 63 →
        w = 2 * max left_weight right_weight + 1 ∧ left_weight < w ∧ right_weight < w) := by
  cases fuel with
  | zero => simp [balance_scale] at h
  | succ fuel =>
    obtain ⟨d, l, bm1, r, bm2, hf, hl, hr, -, hw⟩ := balance_scale_succ_ok fuel sm name bm bm' w h
    refine ⟨fuel, d, l, bm1, r, bm2, rfl, hf, hl, hr, ?_, ?_⟩
    · rw [hw, WORD, Nat.mul_comm]
    · intro h1 h2
      unfold Mass at *
      have hm : max l r < 2 ^ 63 := max_lt h1 h2
      have hl' : l ≤ max l r := le_max_left l r
      have hr' : r ≤ max l r := le_max_right l r
      generalize max l r = m at hw hm hl' hr' ⊢
      have hw' : w = m * 2 + 1 := by
        rw [hw, WORD]
        exact Nat.mod_eq_of_lt (by omega)
      omega

/-- An instance of the amended C7: pans `5` and `5` give the effective weight
`11`. -/
theorem effective_weight_modulo_witness :
    ∃ fuel' d left_weight bm1 right_weight bm2,
      1 = fuel' + 1 ∧ find [("b", (⟨.mass 5, .mass 5⟩ : ScaleDescription))] "b" = some d ∧
      get_side_mass (balance_scale fuel' [("b", ⟨.mass 5, .mass 5⟩)]) d.m_left []
        = .ok (left_weight, bm1) ∧
      get_side_mass (balance_scale fuel' [("b", ⟨.mass 5, .mass 5⟩)]) d.m_right bm1
        = .ok (right_weight, bm2) ∧
      11 = (2 * max left_weight right_weight + 1) % 2 ^ 64 ∧
      (left_weight < 2 ^ 63 → right_weight < 2 ^ 63 →
        11 = 2 * max left_weight right_weight + 1 ∧ left_weight < 11 ∧ right_weight < 11) :=
  effective_weight_modulo 1 [("b", ⟨.mass 5, .mass 5⟩)] "b" [] [("b", ⟨0, 0⟩)] 11 (by decide)

/-! ## The example of the specification -/

/-- C8, counterexample: on the lines `a b c`, `b 5 5`, `c 2 8` the scale `c`, whose
left pan `2` is the lighter one, is recorded as `(6, 0)` and not as `(0, 6)`, and
the third output line is `c,6,0` and not `c,0,6`. -/
theorem example_tree_records_c_on_the_left :
    parse_input_file ["a b c", "b 5 5", "c 2 8"]
      = .ok ([("a", ⟨.scale "b", .scale "c"⟩), ("b", ⟨.mass 5, .mass 5⟩),
              ("c", ⟨.mass 2, .mass 8⟩)], "a") ∧
    balance_scale 2 [("a", ⟨.scale "b", .scale "c"⟩), ("b", ⟨.mass 5, .mass 5⟩),
        ("c", ⟨.mass 2, .mass 8⟩)] "a" []
      = .ok (35, [("a", ⟨6, 0⟩), ("b", ⟨0, 0⟩), ("c", ⟨6, 0⟩)]) ∧
    find [("a", (⟨6, 0⟩ : BalanceMasses)), ("b", ⟨0, 0⟩), ("c", ⟨6, 0⟩)] "c" ≠ some ⟨0, 6⟩ ∧
    main 2 ["a b c", "b 5 5", "c 2 8"] ≠ .ok ["a,6,0", "b,0,0", "c,0,6"] :=
  ⟨rfl, by decide, by decide, by decide⟩

/-- C8, amended: on the lines `a b c`, `b 5 5`, `c 2 8` the parser returns the root
`a`; with fuel for the two levels of the tree, `balance_scale` from `a` resolves
the pans of `a` to `11` and `17` and records `a = (6, 0)`, `b = (0, 0)`,
`c = (6, 0)`; the output lines, in key order, are `a,6,0`, `b,0,0`, `c,6,0`. -/
theorem example_tree_end_to_end (fuel : Nat) (h : 2 ≤ fuel) :
    parse_input_file ["a b c", "b 5 5", "c 2 8"]
      = .ok ([("a", ⟨.scale "b", .scale "c"⟩), ("b", ⟨.mass 5, .mass 5⟩),
              ("c", ⟨.mass 2, .mass 8⟩)], "a") ∧
    get_side_mass (balance_scale (fuel - 1) [("a", ⟨.scale "b", .scale "c"⟩),
        ("b", ⟨.mass 5, .mass 5⟩), ("c", ⟨.mass 2, .mass 8⟩)]) (.scale "b") []
      = .ok (11, [("b", ⟨0, 0⟩)]) ∧
    get_side_mass (balance_scale (fuel - 1) [("a", ⟨.scale "b", .scale "c"⟩),
        ("b", ⟨.mass 5, .mass 5⟩), ("c", ⟨.mass 2, .mass 8⟩)]) (.scale "c") [("b", ⟨0, 0⟩)]
      = .ok (17, [("b", ⟨0, 0⟩), ("c", ⟨6, 0⟩)]) ∧
    balance_scale fuel [("a", ⟨.scale "b", .scale "c"⟩), ("b", ⟨.mass 5, .mass 5⟩),
        ("c", ⟨.mass 2, .mass 8⟩)] "a" []
      = .ok (35, [("a", ⟨6, 0⟩), ("b", ⟨0, 0⟩), ("c", ⟨6, 0⟩)]) ∧
    main fuel ["a b c", "b 5 5", "c 2 8"] = .ok ["a,6,0", "b,0,0", "c,6,0"] := by
  obtain ⟨n, rfl⟩ : ∃ n, fuel = n + 2 := ⟨fuel - 2, by omega⟩
  exact ⟨rfl, rfl, rfl, rfl, rfl⟩

/-- The amended C8 with fuel `2`. -/
theorem example_tree_end_to_end_witness :
    2 ≤ 2 ∧ main 2 ["a b c", "b 5 5", "c 2 8"] = .ok ["a,6,0", "b,0,0", "c,6,0"] :=
  ⟨by decide, (example_tree_end_to_end 2 (by decide)).2.2.2.2⟩

/-! ## Lemmas on the link tracker -/

theorem find_tracker_update (f : Nat → Nat) (t : LinkTracker) (name k : ScaleName) :
    find (tracker_update f t name) k
      = if k = name then some (f (counter t name)) else find t k := by
  induction t with
  | nil =>
    by_cases hk : k = name
    · simp [tracker_update, find, counter, hk]
    · simp [tracker_update, find, hk, Ne.symm hk]
  | cons e rest ih =>
    obtain ⟨k0, v⟩ := e
    by_cases h0 : k0 = name
    · by_cases hk : k = name
      · simp [tracker_update, find, counter, h0, hk]
      · simp [tracker_update, find, h0, hk, Ne.symm hk]
    · by_cases hk : k = name
      · subst hk
        simp [tracker_update, find, counter, h0, ih]
      · simp only [tracker_update, h0, if_false, find, ih, hk]

theorem counter_tracker_update (f : Nat → Nat) (t : LinkTracker) (name k : ScaleName) :
    counter (tracker_update f t name) k
      = if k = name then f (counter t name) else counter t k := by
  unfold counter
  rw [find_tracker_update]
  split <;> simp [counter]

theorem keys_tracker_update (f : Nat → Nat) (t : LinkTracker) (name : ScaleName) :
    keys (tracker_update f t name) = if name ∈ keys t then keys t else keys t ++ [name] := by
  induction t with
  | nil => simp [tracker_update, keys]
  | cons e rest ih =>
    obtain ⟨k0, v⟩ := e
    by_cases h0 : k0 = name
    · simp [tracker_update, keys, h0]
    · simp only [tracker_update, h0, if_false, keys, List.map_cons, List.mem_cons] at ih ⊢
      rw [ih]
      by_cases hm : name ∈ List.map Prod.fst rest
      · simp [hm]
      · simp [hm, Ne.symm h0]

theorem trackerOK_update (f : Nat → Nat) (hf : ∀ v, f v < WORD) (t : LinkTracker)
    (name : ScaleName) (h : TrackerOK t) : TrackerOK (tracker_update f t name) := by
  obtain ⟨h1, h2⟩ := h
  constructor
  · rw [keys_tracker_update]
    split
    · exact h1
    · rename_i hn
      rw [List.nodup_append]
      refine ⟨h1, List.nodup_singleton _, ?_⟩
      intro a ha hb
      rw [List.mem_singleton] at hb
      subst hb
      exact hn ha
  · clear h1
    induction t with
    | nil =>
      intro p hp
      simp only [tracker_update, List.mem_singleton] at hp
      subst hp
      exact hf 0
    | cons e rest ih =>
      obtain ⟨k0, v⟩ := e
      intro p hp
      simp only [tracker_update] at hp
      split at hp
      · rcases List.mem_cons.1 hp with hp | hp
        · subst hp
          exact hf v
        · exact h2 p (List.mem_cons_of_mem _ hp)
      · rcases List.mem_cons.1 hp with hp | hp
        · subst hp
          exact h2 _ (List.mem_cons_self _ _)
        · exact ih (fun q hq => h2 q (List.mem_cons_of_mem _ hq)) p hp

theorem increment_lt (v : Nat) : increment v < WORD := Nat.mod_lt _ (by decide)

theorem decrement_lt (v : Nat) : decrement v < WORD := Nat.mod_lt _ (by decide)

theorem counts_increment (t : LinkTracker) (decls refs : List ScaleName) (name : ScaleName)
    (h : Counts t decls refs) :
    Counts (tracker_update increment t name) (decls ++ [name]) refs := by
  intro n
  have hn := h n
  rw [counter_tracker_update, List.count_append]
  by_cases hk : n = name
  · subst hk
    simp only [if_true, increment, List.count_singleton_self, WORD] at hn ⊢
    omega
  · have : List.count n [name] = 0 := List.count_eq_zero.2 (by simpa using hk)
    simp only [if_neg hk, this, Nat.add_zero]
    exact hn

theorem counts_decrement (t : LinkTracker) (decls refs : List ScaleName) (name : ScaleName)
    (h : Counts t decls refs) :
    Counts (tracker_update decrement t name) decls (refs ++ [name]) := by
  intro n
  have hn := h n
  rw [counter_tracker_update, List.count_append]
  by_cases hk : n = name
  · subst hk
    simp only [if_true, decrement, List.count_singleton_self, WORD] at hn ⊢
    omega
  · have : List.count n [name] = 0 := List.count_eq_zero.2 (by simpa using hk)
    simp only [if_neg hk, this, Nat.add_zero]
    exact hn

/-! ## Lemmas on the reading loop -/

theorem isalpha_of_isdigit (c : Char) (h : isdigit c = true) : isalpha c = false := by
  simp only [isdigit, Bool.and_eq_true, decide_eq_true_eq] at h
  simp only [isalpha, Bool.or_eq_false_iff, Bool.and_eq_false_iff, decide_eq_false_iff_not]
  omega

theorem emplace_some {β : Type} (m m' : List (ScaleName × β)) (name : ScaleName) (v : β)
    (h : emplace m name v = some m') : name ∉ keys m ∧ m' = m ++ [(name, v)] := by
  unfold emplace at h
  cases hf : find m name with
  | some w => rw [hf] at h; exact absurd h (by simp)
  | none =>
    rw [hf] at h
    simp only [Option.some.injEq] at h
    exact ⟨(find_eq_none_iff m name).1 hf, h.symm⟩

theorem emplace_of_not_mem {β : Type} (m : List (ScaleName × β)) (name : ScaleName) (v : β)
    (h : name ∉ keys m) : emplace m name v = some (m ++ [(name, v)]) := by
  unfold emplace
  rw [(find_eq_none_iff m name).2 h]

theorem emplace_of_mem {β : Type} (m : List (ScaleName × β)) (name : ScaleName) (v : β)
    (h : name ∈ keys m) : emplace m name v = none := by
  unfold emplace
  obtain ⟨w, hw⟩ := mem_keys_find m name h
  rw [hw]

theorem map_refs_append (m1 m2 : ScaleMap) : map_refs (m1 ++ m2) = map_refs m1 ++ map_refs m2 := by
  induction m1 with
  | nil => simp [map_refs]
  | cons e rest ih =>
    obtain ⟨k, d⟩ := e
    simp [map_refs, ih]

theorem keys_append {β : Type} (m1 m2 : List (ScaleName × β)) :
    keys (m1 ++ m2) = keys m1 ++ keys m2 := by
  simp [keys]

/-- A pan that is read: the reference it holds is the token when the token starts
with a letter, and the counters follow. -/
theorem read_pan_ok (line : String) (t t' : LinkTracker) (tok : String) (p : MassOrScaleName)
    (h : read_pan line t tok = .ok (p, t')) :
    pan_ref p = [tok].filter is_reference ∧
    (is_mass_in_range tok = true ∨ is_reference tok = true) ∧
    (TrackerOK t → TrackerOK t') ∧
    ∀ decls refs, Counts t decls refs → Counts t' decls (refs ++ pan_ref p) := by
  unfold read_pan at h
  split at h
  · exact absurd h (by simp)
  · rename_i c cs hc
    split at h
    · rename_i hd
      unfold stoull at h
      simp only [] at h
      split at h
      · rename_i m hm
        split at hm
        · rename_i hv
          simp only [Except.ok.injEq, Prod.mk.injEq] at h hm
          obtain ⟨rfl, rfl⟩ := h
          refine ⟨?_, Or.inl ?_, id, ?_⟩
          · simp [pan_ref, is_reference, hc, isalpha_of_isdigit c hd]
          · simp only [is_mass_in_range, hc, hd, Bool.true_and, decide_eq_true_eq]
            rw [← hc]
            exact hv
          · intro decls refs hcount
            simpa [pan_ref] using hcount
        · exact absurd hm (by simp)
      · exact absurd h (by simp)
    · split at h
      · rename_i hd ha
        simp only [Except.ok.injEq, Prod.mk.injEq] at h
        obtain ⟨rfl, rfl⟩ := h
        refine ⟨?_, Or.inr ?_, trackerOK_update decrement decrement_lt t tok, ?_⟩
        · simp [pan_ref, is_reference, hc, ha]
        · simp [is_reference, hc, ha]
        · intro decls refs hcount
          exact counts_decrement t decls refs tok hcount
      · exact absurd h (by simp)

/-- A line that the loop body accepts: either it is skipped, or it has three
fields, both pans are read and the scale is new. -/
theorem process_line_ok (st st' : ParseState) (line : String)
    (h : process_line st line = .ok st') :
    (is_skipped line = true ∧ fields line = [] ∧ st' = st) ∨
    (is_skipped line = false ∧ ∃ nm ls rs l r t2,
      fields line = [nm, ls, rs] ∧
      read_pan (replace_commas line) (tracker_update increment st.scale_link_tracker nm) ls
        = .ok (l, t2) ∧
      read_pan (replace_commas line) t2 rs = .ok (r, st'.scale_link_tracker) ∧
      emplace st.scale_map nm ⟨l, r⟩ = some st'.scale_map) := by
  unfold process_line at h
  split at h
  · rename_i hs
    simp only [Except.ok.injEq] at h
    exact Or.inl ⟨hs, by simp [fields, hs], h.symm⟩
  · rename_i hs
    simp only [] at h
    split at h
    · exact absurd h (by simp)
    · rename_i nm rest1 h1
      split at h
      · exact absurd h (by simp)
      · rename_i ls rest2 h2
        split at h
        · exact absurd h (by simp)
        · rename_i rs rest3 h3
          split at h
          · exact absurd h (by simp)
          · rename_i l t2 hl
            split at h
            · exact absurd h (by simp)
            · rename_i r t3 hr
              split at h
              · exact absurd h (by simp)
              · rename_i sm' he
                simp only [Except.ok.injEq] at h
                subst h
                refine Or.inr ⟨by simpa using hs, nm, ls, rs, l, r, t2, ?_, hl, hr, he⟩
                simp [fields, hs, h1, h2, h3]

/-- Effect of an accepted line on the state: the declared name and the pan
references of the line are appended, and the invariant of the loop is kept. -/
theorem process_line_state (st st' : ParseState) (line : String)
    (h : process_line st line = .ok st') :
    keys st'.scale_map = keys st.scale_map ++ (declared_name line).toList ∧
    map_refs st'.scale_map
      = map_refs st.scale_map ++ ((fields line).drop 1).filter is_reference ∧
    (StateOK st → StateOK st') := by
  rcases process_line_ok st st' line h with ⟨-, hf, rfl⟩ | ⟨-, nm, ls, rs, l, r, t2, hf, hl, hr, he⟩
  · simp [declared_name, hf]
  · obtain ⟨hnew, hsm⟩ := emplace_some _ _ _ _ he
    obtain ⟨hl1, -, hl3, hl4⟩ := read_pan_ok _ _ _ _ _ hl
    obtain ⟨hr1, -, hr3, hr4⟩ := read_pan_ok _ _ _ _ _ hr
    have hk : keys st'.scale_map = keys st.scale_map ++ [nm] := by
      rw [hsm, keys_append]; rfl
    have hm : map_refs st'.scale_map = map_refs st.scale_map ++ (pan_ref l ++ pan_ref r) := by
      rw [hsm, map_refs_append]
      simp [map_refs, pan_refs]
    refine ⟨?_, ?_, ?_⟩
    · rw [hk]
      simp [declared_name, hf]
    · rw [hm, hl1, hr1, hf]
      simp [List.filter_cons]
      split <;> split <;> simp
    · rintro ⟨h1, h2, h3⟩
      refine ⟨?_, hr3 (hl3 (trackerOK_update increment increment_lt _ nm h2)), ?_⟩
      · rw [hk, List.nodup_append]
        refine ⟨h1, List.nodup_singleton _, ?_⟩
        intro a ha hb
        rw [List.mem_singleton] at hb
        subst hb
        exact hnew ha
      · rw [hk, hm, ← List.append_assoc]
        exact hr4 _ _ (hl4 _ _ (counts_increment _ _ _ nm h3))

/-- Effect of the whole loop, when it ends without an error. -/
theorem parse_lines_state (lines : List String) :
    ∀ (st st' : ParseState), parse_lines st lines = .ok st' →
      keys st'.scale_map = keys st.scale_map ++ declared_names lines ∧
      map_refs st'.scale_map = map_refs st.scale_map ++ pan_reference_list lines ∧
      (StateOK st → StateOK st') := by
  induction lines with
  | nil =>
    intro st st' h
    simp only [parse_lines, Except.ok.injEq] at h
    subst h
    simp [declared_names, pan_reference_list]
  | cons line rest ih =>
    intro st st' h
    simp only [parse_lines] at h
    split at h
    · exact absurd h (by simp)
    · rename_i st1 h1
      obtain ⟨a1, a2, a3⟩ := process_line_state st st1 line h1
      obtain ⟨b1, b2, b3⟩ := ih st1 st' h
      refine ⟨?_, ?_, fun hs => b3 (a3 hs)⟩
      · rw [b1, a1, List.append_assoc]
        congr 1
        simp only [declared_names, List.filterMap_cons]
        cases declared_name line <;> simp
      · rw [b2, a2, List.append_assoc]
        rfl

theorem stateOK_init : StateOK ⟨[], []⟩ := by
  refine ⟨by simp [keys], ⟨by simp [keys], by simp⟩, ?_⟩
  intro n
  simp [counter, find, keys, map_refs]

/-! ## What an accepted input looks like -/

theorem find_some_mem {β : Type} (m : List (ScaleName × β)) (k : ScaleName) (v : β)
    (h : find m k = some v) : (k, v) ∈ m := by
  induction m with
  | nil => simp [find] at h
  | cons e rest ih =>
    obtain ⟨k0, w⟩ := e
    simp only [find] at h
    split at h
    · rename_i hk
      simp only [Option.some.injEq] at h
      subst hk h
      exact List.mem_cons_self _ _
    · exact List.mem_cons_of_mem _ (ih h)

theorem mem_find_of_nodup {β : Type} (m : List (ScaleName × β)) (k : ScaleName) (v : β)
    (hn : (keys m).Nodup) (h : (k, v) ∈ m) : find m k = some v := by
  induction m with
  | nil => simp at h
  | cons e rest ih =>
    obtain ⟨k0, w⟩ := e
    simp only [keys, List.map_cons, List.nodup_cons] at hn
    rcases List.mem_cons.1 h with h | h
    · simp only [Prod.mk.injEq] at h
      obtain ⟨rfl, rfl⟩ := h
      simp [find]
    · have hne : k0 ≠ k := by
        rintro rfl
        exact hn.1 (List.mem_map.2 ⟨(k0, v), h, rfl⟩)
      simp only [find, hne, if_false]
      exact ih hn.2 h

/-- When exactly one counter is not zero, it is the counter of that name and all
other counters are zero. -/
theorem counters_of_single_ill_formed (t : LinkTracker) (root : ScaleName) (c : Nat)
    (hn : (keys t).Nodup) (h : ill_formed_scales t = [(root, c)]) :
    counter t root = c ∧ c ≠ 0 ∧ ∀ n, n ≠ root → counter t n = 0 := by
  have hmem : (root, c) ∈ ill_formed_scales t := by rw [h]; exact List.mem_singleton_self _
  unfold ill_formed_scales at hmem h
  rw [List.mem_filter] at hmem
  obtain ⟨hm1, hm2⟩ := hmem
  refine ⟨?_, by simpa using hm2, ?_⟩
  · simp [counter, mem_find_of_nodup t root c hn hm1]
  · intro n hne
    unfold counter
    cases hf : find t n with
    | none => rfl
    | some v =>
      simp only [Option.getD_some]
      by_contra hv
      have : (n, v) ∈ List.filter (fun p => decide (p.2 ≠ 0)) t :=
        List.mem_filter.2 ⟨find_some_mem t n v hf, by simpa using hv⟩
      rw [h, List.mem_singleton] at this
      simp only [Prod.mk.injEq] at this
      exact hne this.1

/-- The steps of an accepted run: the loop ends in a state with a non-empty scale
map whose only non-zero counter is the counter `1` of the root. -/
theorem parse_input_file_ok (lines : List String) (sm : ScaleMap) (root : ScaleName)
    (h : parse_input_file lines = .ok (sm, root)) :
    ∃ t, parse_lines ⟨[], []⟩ lines = .ok ⟨sm, t⟩ ∧ sm ≠ [] ∧
      ill_formed_scales t = [(root, 1)] := by
  unfold parse_input_file at h
  split at h
  · exact absurd h (by simp)
  · rename_i st hst
    obtain ⟨sm0, t⟩ := st
    unfold find_root at h
    simp only [] at h
    split at h
    · exact absurd h (by simp)
    · split at h
      · rename_i name count hill
        split at h
        · exact absurd h (by simp)
        · rename_i hc
          simp only [Except.ok.injEq, Prod.mk.injEq] at h
          obtain ⟨rfl, rfl⟩ := h
          have hc1 : count = 1 := by simpa using hc
          subst hc1
          exact ⟨t, hst, by simp, hill⟩
      · exact absurd h (by simp)

/-- An accepted input with fewer than `2 ^ 64 - 1` pan references: the returned map
holds the declared names and the pan references of the input, and has the
validated shape. -/
theorem accepted_validated (lines : List String) (sm : ScaleMap) (root : ScaleName)
    (h : parse_input_file lines = .ok (sm, root)) (hb : pan_references lines < 2 ^ 64 - 1) :
    keys sm = declared_names lines ∧ map_refs sm = pan_reference_list lines ∧
      Validated sm root := by
  obtain ⟨t, hp, -, hill⟩ := parse_input_file_ok lines sm root h
  obtain ⟨hk, hr, hok⟩ := parse_lines_state lines _ _ hp
  obtain ⟨hnd, ⟨htn, -⟩, hcount⟩ := hok stateOK_init
  simp only [keys, map_refs, List.map_nil, List.nil_append] at hk hr
  dsimp only at hnd htn hcount
  obtain ⟨hroot, -, hzero⟩ := counters_of_single_ill_formed t root 1 htn hill
  have hlen : ∀ n, (map_refs sm).count n < 2 ^ 64 - 1 := by
    intro n
    have := List.count_le_length n (map_refs sm)
    rw [hr] at this ⊢
    unfold pan_references at hb
    omega
  have hdc : ∀ n, (keys sm).count n ≤ 1 := fun n => List.nodup_iff_count_le_one.1 hnd n
  have hnr : ∀ n, n ≠ root → (map_refs sm).count n = (keys sm).count n := by
    intro n hne
    have h1 := hcount n
    rw [hzero n hne] at h1
    have h2 := hlen n
    have h3 := hdc n
    simp only [WORD] at h1
    omega
  have hr0 : (map_refs sm).count root = 0 ∧ (keys sm).count root = 1 := by
    have h1 := hcount root
    rw [hroot] at h1
    have h2 := hlen root
    have h3 := hdc root
    simp only [WORD] at h1
    omega
  refine ⟨hk, hr, hnd, ?_, hr0.1, ?_, ?_⟩
  · exact List.count_pos_iff.1 (by rw [hr0.2]; exact Nat.one_pos)
  · intro n hn hne
    rw [hnr n hne]
    exact List.count_eq_one_of_mem hnd hn
  · intro n hn
    by_cases hne : n = root
    · subst hne
      have := List.count_pos_iff.2 hn
      omega
    · have := List.count_pos_iff.2 hn
      rw [hnr n hne] at this
      exact List.count_pos_iff.1 this

/-! ## The root and the references of an accepted input -/

/-- C4: for every accepted input with fewer than `2 ^ 64 - 1` pan references, the
keys of the returned map are the declared names, the returned root is a declared
name that occurs as a pan reference zero times, it is the only declared name that
does, and every other declared name occurs as a pan reference exactly once in the
whole input. -/
theorem root_is_the_only_unreferenced_scale (lines : List String) (sm : ScaleMap)
    (root : ScaleName) (h : parse_input_file lines = .ok (sm, root))
    (hb : pan_references lines < 2 ^ 64 - 1) :
    keys sm = declared_names lines ∧
    root ∈ declared_names lines ∧ reference_count lines root = 0 ∧
    (∀ n ∈ declared_names lines, reference_count lines n = 0 → n = root) ∧
    (∀ n ∈ declared_names lines, n ≠ root → reference_count lines n = 1) := by
  obtain ⟨hk, hr, -, h1, h2, h3, -⟩ := accepted_validated lines sm root h hb
  rw [hk, hr] at *
  refine ⟨rfl, h1, h2, ?_, h3⟩
  intro n hn h0
  by_contra hne
  have := h3 n hn hne
  unfold reference_count at h0
  omega

/-- C4 on the input `a b c`, `b 5 5`, `c 2 8`, whose root is `a`. -/
theorem root_is_the_only_unreferenced_scale_witness :
    pan_references ["a b c", "b 5 5", "c 2 8"] < 2 ^ 64 - 1 ∧
    "a" ∈ declared_names ["a b c", "b 5 5", "c 2 8"] ∧
    reference_count ["a b c", "b 5 5", "c 2 8"] "a" = 0 ∧
    (∀ n ∈ declared_names ["a b c", "b 5 5", "c 2 8"], n ≠ "a" →
      reference_count ["a b c", "b 5 5", "c 2 8"] n = 1) :=
  have h := root_is_the_only_unreferenced_scale ["a b c", "b 5 5", "c 2 8"]
    [("a", ⟨.scale "b", .scale "c"⟩), ("b", ⟨.mass 5, .mass 5⟩), ("c", ⟨.mass 2, .mass 8⟩)]
    "a" rfl (by decide)
  ⟨by decide, h.2.1, h.2.2.1, h.2.2.2.2⟩

/-- C5: for every input with fewer than `2 ^ 64 - 1` pan references, if the input is
accepted then every name that appears as a pan reference is a key of the returned
scale map; hence an input that references an undeclared name is rejected. -/
theorem no_dangling_reference (lines : List String) (hb : pan_references lines < 2 ^ 64 - 1) :
    (∀ sm root, parse_input_file lines = .ok (sm, root) →
      ∀ n ∈ pan_reference_list lines, n ∈ keys sm) ∧
    ((∃ n ∈ pan_reference_list lines, n ∉ declared_names lines) →
      ∃ e, parse_input_file lines = .error e) := by
  have key : ∀ sm root, parse_input_file lines = .ok (sm, root) →
      keys sm = declared_names lines ∧ ∀ n ∈ pan_reference_list lines, n ∈ keys sm := by
    intro sm root h
    obtain ⟨hk, hr, -, -, -, -, h4⟩ := accepted_validated lines sm root h hb
    exact ⟨hk, fun n hn => h4 n (hr ▸ hn)⟩
  refine ⟨fun sm root h => (key sm root h).2, ?_⟩
  rintro ⟨n, hn, hnd⟩
  cases hp : parse_input_file lines with
  | error e => exact ⟨e, rfl⟩
  | ok p =>
    obtain ⟨sm, root⟩ := p
    obtain ⟨hk, hm⟩ := key sm root hp
    exact absurd (hk ▸ hm n hn) hnd

/-- C5 on the input `a b c`, `b 5 5`, which references the undeclared `c`. -/
theorem no_dangling_reference_witness :
    pan_references ["a b c", "b 5 5"] < 2 ^ 64 - 1 ∧
    ∃ e, parse_input_file ["a b c", "b 5 5"] = .error e :=
  ⟨by decide, (no_dangling_reference ["a b c", "b 5 5"] (by decide)).2 ⟨"c", by decide, by decide⟩⟩

/-! ## Paths from the root of a validated map -/

theorem child_some (sm : ScaleMap) (p c : ScaleName) (side : Bool)
    (h : child sm p side = some c) :
    ∃ d, find sm p = some d ∧ side_pan d side = .scale c := by
  unfold child at h
  split at h
  · exact absurd h (by simp)
  · rename_i d hd
    split at h
    · rename_i c' hc
      simp only [Option.some.injEq] at h
      subst h
      exact ⟨d, hd, hc⟩
    · exact absurd h (by simp)

theorem child_of (sm : ScaleMap) (p c : ScaleName) (side : Bool) (d : ScaleDescription)
    (hd : find sm p = some d) (hc : side_pan d side = .scale c) : child sm p side = some c := by
  simp [child, hd, hc]

theorem side_pan_mem (d : ScaleDescription) (side : Bool) (c : ScaleName)
    (h : side_pan d side = .scale c) : c ∈ pan_refs d := by
  rw [mem_pan_refs]
  cases side
  · exact Or.inl (by simpa [side_pan] using h)
  · exact Or.inr (by simpa [side_pan] using h)

theorem count_pan_refs_le (sm : ScaleMap) (p : ScaleName) (d : ScaleDescription)
    (c : ScaleName) (h : (p, d) ∈ sm) : (pan_refs d).count c ≤ (map_refs sm).count c := by
  induction sm with
  | nil => simp at h
  | cons e rest ih =>
    obtain ⟨k, d0⟩ := e
    simp only [map_refs, List.count_append]
    rcases List.mem_cons.1 h with h | h
    · simp only [Prod.mk.injEq] at h
      obtain ⟨rfl, rfl⟩ := h
      omega
    · have := ih h
      omega

/-- Two different entries that both reference `c` make two references to `c`. -/
theorem two_le_count_of_two_entries (sm : ScaleMap) (p1 p2 : ScaleName)
    (d1 d2 : ScaleDescription) (c : ScaleName) (h1 : (p1, d1) ∈ sm) (h2 : (p2, d2) ∈ sm)
    (hne : (p1, d1) ≠ (p2, d2)) (hc1 : c ∈ pan_refs d1) (hc2 : c ∈ pan_refs d2) :
    2 ≤ (map_refs sm).count c := by
  induction sm with
  | nil => simp at h1
  | cons e rest ih =>
    obtain ⟨k, d0⟩ := e
    simp only [map_refs, List.count_append]
    have c1 := List.count_pos_iff.2 hc1
    have c2 := List.count_pos_iff.2 hc2
    rcases List.mem_cons.1 h1 with e1 | r1 <;> rcases List.mem_cons.1 h2 with e2 | r2
    · exact absurd (e1.trans e2.symm) hne
    · simp only [Prod.mk.injEq] at e1
      have := count_pan_refs_le rest p2 d2 c r2
      rw [← e1.2]
      omega
    · simp only [Prod.mk.injEq] at e2
      have := count_pan_refs_le rest p1 d1 c r1
      rw [← e2.2]
      omega
    · have := ih r1 r2
      omega

/-- A scale referenced at most once has one parent and sits on one side of it. -/
theorem parent_unique (sm : ScaleMap) (p1 p2 c : ScaleName) (s1 s2 : Bool)
    (hcount : (map_refs sm).count c ≤ 1)
    (h1 : child sm p1 s1 = some c) (h2 : child sm p2 s2 = some c) : p1 = p2 ∧ s1 = s2 := by
  obtain ⟨d1, hd1, hc1⟩ := child_some sm p1 c s1 h1
  obtain ⟨d2, hd2, hc2⟩ := child_some sm p2 c s2 h2
  have m1 := find_some_mem sm p1 d1 hd1
  have m2 := find_some_mem sm p2 d2 hd2
  by_cases hp : p1 = p2
  · subst hp
    rw [hd1] at hd2
    simp only [Option.some.injEq] at hd2
    subst hd2
    refine ⟨rfl, ?_⟩
    by_contra hs
    have hboth : d1.m_left = .scale c ∧ d1.m_right = .scale c := by
      cases s1 <;> cases s2 <;> simp_all [side_pan]
    have hle := count_pan_refs_le sm p1 d1 c m1
    have : (pan_refs d1).count c = 2 := by
      simp [pan_refs, pan_ref, hboth.1, hboth.2]
    omega
  · exfalso
    have := two_le_count_of_two_entries sm p1 p2 d1 d2 c m1 m2
      (by simp [hp]) (side_pan_mem d1 s1 c hc1) (side_pan_mem d2 s2 c hc2)
    omega

theorem child_mem_refs (sm : ScaleMap) (p c : ScaleName) (side : Bool)
    (h : child sm p side = some c) : c ∈ map_refs sm := by
  obtain ⟨d, hd, hc⟩ := child_some sm p c side h
  have h1 := count_pan_refs_le sm p d c (find_some_mem sm p d hd)
  have h2 := List.count_pos_iff.2 (side_pan_mem d side c hc)
  exact List.count_pos_iff.1 (by omega)

theorem validated_count_le_one (sm : ScaleMap) (root : ScaleName) (hv : Validated sm root)
    (c : ScaleName) : (map_refs sm).count c ≤ 1 := by
  obtain ⟨-, -, h0, h1, h2⟩ := hv
  by_cases hc : c ∈ map_refs sm
  · by_cases hr : c = root
    · subst hr; omega
    · rw [h1 c (h2 c hc) hr]
  · rw [List.count_eq_zero.2 hc]
    exact Nat.zero_le _

/-- In a validated map, two paths from the root that end at the same scale are the
same path. -/
theorem descend_injective (sm : ScaleMap) (root : ScaleName) (hv : Validated sm root) :
    ∀ (a b : List Bool) (v : ScaleName),
      descend sm root a = some v → descend sm root b = some v → a = b := by
  have hroot : ∀ (path : List Bool) (side : Bool),
      descend sm root (side :: path) ≠ some root := by
    intro path side h
    simp only [descend] at h
    split at h
    · exact absurd h (by simp)
    · have := List.count_pos_iff.2 (child_mem_refs sm _ root side h)
      have := hv.2.2.1
      omega
  intro a
  induction a with
  | nil =>
    intro b v ha hb
    simp only [descend, Option.some.injEq] at ha
    subst ha
    cases b with
    | nil => rfl
    | cons side path => exact absurd hb (hroot path side)
  | cons s1 a ih =>
    intro b v ha hb
    cases b with
    | nil =>
      simp only [descend, Option.some.injEq] at hb
      subst hb
      exact absurd ha (hroot a s1)
    | cons s2 b =>
      simp only [descend] at ha hb
      split at ha
      · exact absurd ha (by simp)
      · rename_i u1 hu1
        split at hb
        · exact absurd hb (by simp)
        · rename_i u2 hu2
          obtain ⟨rfl, rfl⟩ := parent_unique sm u1 u2 v s1 s2
            (validated_count_le_one sm root hv v) ha hb
          rw [ih b u1 hu1 hu2]

theorem descend_mem_keys (sm : ScaleMap) (root : ScaleName) (hv : Validated sm root)
    (a : List Bool) (v : ScaleName) (h : descend sm root a = some v) : v ∈ keys sm := by
  cases a with
  | nil =>
    simp only [descend, Option.some.injEq] at h
    subst h
    exact hv.2.1
  | cons s a =>
    simp only [descend] at h
    split at h
    · exact absurd h (by simp)
    · exact hv.2.2.2.2 v (child_mem_refs sm _ v s h)

/-- The scales along a path from the root are distinct scales of the map. -/
theorem descend_trail (sm : ScaleMap) (root : ScaleName) (hv : Validated sm root) :
    ∀ (a : List Bool) (v : ScaleName), descend sm root a = some v →
      ∃ trail : List ScaleName, trail.length = a.length + 1 ∧ trail.Nodup ∧
        ∀ x ∈ trail, x ∈ keys sm ∧ ∃ b : List Bool, b.length ≤ a.length ∧
          descend sm root b = some x := by
  intro a
  induction a with
  | nil =>
    intro v h
    refine ⟨[v], rfl, List.nodup_singleton v, ?_⟩
    intro x hx
    rw [List.mem_singleton] at hx
    subst hx
    exact ⟨descend_mem_keys sm root hv [] x h, [], Nat.le_refl _, h⟩
  | cons s a ih =>
    intro v h
    have h' := h
    simp only [descend] at h'
    split at h'
    · exact absurd h' (by simp)
    · rename_i u hu
      obtain ⟨trail, hlen, hnd, hall⟩ := ih u hu
      refine ⟨v :: trail, by simp [hlen], List.nodup_cons.2 ⟨?_, hnd⟩, ?_⟩
      · intro hmem
        obtain ⟨-, b, hb, hbv⟩ := hall v hmem
        have := descend_injective sm root hv (s :: a) b v h hbv
        rw [← this] at hb
        simp at hb
      · intro x hx
        rcases List.mem_cons.1 hx with hx | hx
        · subst hx
          exact ⟨descend_mem_keys sm root hv (s :: a) x h, s :: a, Nat.le_refl _, h⟩
        · obtain ⟨h1, b, hb, hbx⟩ := hall x hx
          exact ⟨h1, b, by simp only [List.length_cons]; omega, hbx⟩

/-- A path from the root of a validated map is shorter than the map. -/
theorem descend_length_lt (sm : ScaleMap) (root : ScaleName) (hv : Validated sm root)
    (a : List Bool) (v : ScaleName) (h : descend sm root a = some v) :
    a.length < sm.length := by
  obtain ⟨trail, hlen, hnd, hall⟩ := descend_trail sm root hv a v h
  have hsub : trail ⊆ keys sm := fun x hx => (hall x hx).1
  have := (List.subperm_of_subset hnd hsub).length_le
  simp only [keys, List.length_map] at this
  omega

/-- On a validated map, a call of `balance_scale` on the scale at the end of a path
from the root returns normally when the fuel covers the rest of the depth and the
result holds no scale below that path; the keys it adds are below the path. -/
theorem balance_scale_below (sm : ScaleMap) (root : ScaleName) (hv : Validated sm root) :
    ∀ (fuel : Nat) (a : List Bool) (n : ScaleName) (bm : BalanceMap),
      descend sm root a = some n → sm.length ≤ fuel + a.length →
      (∀ k ∈ keys bm, ∀ b, descend sm root (b ++ a) ≠ some k) →
      ∃ w bm', balance_scale fuel sm n bm = .ok (w, bm') ∧
        ∀ k ∈ keys bm', k ∈ keys bm ∨ ∃ b, descend sm root (b ++ a) = some k := by
  intro fuel
  induction fuel with
  | zero =>
    intro a n bm ha hf _
    have := descend_length_lt sm root hv a n ha
    omega
  | succ fuel ih =>
    intro a n bm ha hf hbm
    obtain ⟨d, hd⟩ := mem_keys_find sm n (descend_mem_keys sm root hv a n ha)
    have side : ∀ (s : Bool) (bm0 : BalanceMap),
        (∀ k ∈ keys bm0, ∀ b, descend sm root (b ++ s :: a) ≠ some k) →
        ∃ x bm1, get_side_mass (balance_scale fuel sm) (side_pan d s) bm0 = .ok (x, bm1) ∧
          ∀ k ∈ keys bm1, k ∈ keys bm0 ∨ ∃ b, descend sm root (b ++ s :: a) = some k := by
      intro s bm0 h0
      cases hp : side_pan d s with
      | mass m => exact ⟨m, bm0, rfl, fun k hk => Or.inl hk⟩
      | scale c =>
        have hc : descend sm root (s :: a) = some c := by
          simp only [descend, ha]
          exact child_of sm n c s d hd hp
        exact ih (s :: a) c bm0 hc (by simp only [List.length_cons]; omega) h0
    have below : ∀ (s : Bool) (b : List Bool), b ++ s :: a = (b ++ [s]) ++ a := by
      intro s b; simp
    have apart : ∀ (b1 b2 : List Bool), b1 ++ false :: a ≠ b2 ++ true :: a := by
      intro b1 b2 h
      have := (List.append_inj' h (by simp)).2
      simp at this
    have longer : ∀ (s : Bool) (b : List Bool), b ++ s :: a ≠ a := by
      intro s b h
      have := congrArg List.length h
      simp at this
      omega
    obtain ⟨l, bm1, hl, kl⟩ := side false bm (fun k hk b => by
      rw [below]; exact hbm k hk _)
    obtain ⟨r, bm2, hr, kr⟩ := side true bm1 (fun k hk b hb => by
      rcases kl k hk with h1 | ⟨b1, h1⟩
      · rw [below] at hb; exact hbm k h1 _ hb
      · exact apart b1 b (descend_injective sm root hv _ _ k h1 hb))
    have hnew : n ∉ keys bm2 := by
      intro hn
      rcases kr n hn with h1 | ⟨b, h1⟩
      · rcases kl n h1 with h2 | ⟨b, h2⟩
        · exact hbm n h2 [] ha
        · exact longer false b (descend_injective sm root hv _ _ n h2 ha)
      · exact longer true b (descend_injective sm root hv _ _ n h1 ha)
    have he := map_emplace_of_not_mem bm2 n
      (⟨if l < r then r - l else 0, if l > r then l - r else 0⟩ : BalanceMasses) hnew
    refine ⟨_, _, balance_scale_succ_of fuel sm n bm bm1 bm2 _ d l r hd hl hr he, ?_⟩
    intro k hk
    rw [(keys_ordered_insert bm2 n _).mem_iff, List.mem_cons] at hk
    rcases hk with hk | hk
    · subst hk
      exact Or.inr ⟨[], ha⟩
    · rcases kr k hk with h1 | ⟨b, h1⟩
      · rcases kl k h1 with h2 | ⟨b, h2⟩
        · exact Or.inl h2
        · exact Or.inr ⟨b ++ [false], by rw [← below]; exact h2⟩
      · exact Or.inr ⟨b ++ [true], by rw [← below]; exact h1⟩

/-- On a validated map, `balance_scale` from the root with an empty result returns
normally as soon as the fuel reaches the number of scales. -/
theorem balance_scale_validated (sm : ScaleMap) (root : ScaleName) (hv : Validated sm root)
    (fuel : Nat) (hf : sm.length ≤ fuel) :
    ∃ w bm, balance_scale fuel sm root [] = .ok (w, bm) := by
  obtain ⟨w, bm, h, -⟩ := balance_scale_below sm root hv fuel [] root [] rfl
    (by simpa using hf) (by simp [keys])
  exact ⟨w, bm, h⟩

theorem references_iff_child (sm : ScaleMap) (p c : ScaleName) :
    References sm p c ↔ ∃ side, child sm p side = some c := by
  constructor
  · rintro ⟨d, hd, hc⟩
    rcases (mem_pan_refs d c).1 hc with h | h
    · exact ⟨false, child_of sm p c false d hd (by simpa [side_pan] using h)⟩
    · exact ⟨true, child_of sm p c true d hd (by simpa [side_pan] using h)⟩
  · rintro ⟨side, h⟩
    obtain ⟨d, hd, hc⟩ := child_some sm p c side h
    exact ⟨d, hd, side_pan_mem d side c hc⟩

theorem descend_append (sm : ScaleMap) (start : ScaleName) (a b : List Bool) :
    descend sm start (b ++ a) = (descend sm start a).bind (fun n => descend sm n b) := by
  induction b with
  | nil =>
    cases h : descend sm start a with
    | none => simp [h]
    | some n => simp [h, descend]
  | cons s b ih =>
    show (match descend sm start (b ++ a) with
      | none => none
      | some n => child sm n s) = _
    rw [ih]
    cases h : descend sm start a with
    | none => simp
    | some n => simp [descend]

theorem reachable_descend (sm : ScaleMap) (start v : ScaleName) (h : Reachable sm start v) :
    ∃ a, descend sm start a = some v := by
  induction h with
  | refl => exact ⟨[], rfl⟩
  | tail _ hstep ih =>
    obtain ⟨a, ha⟩ := ih
    obtain ⟨side, hs⟩ := (references_iff_child sm _ _).1 hstep
    exact ⟨side :: a, by simp only [descend, ha]; exact hs⟩

theorem on_cycle_descend (sm : ScaleMap) (v w : ScaleName)
    (h : Relation.TransGen (References sm) v w) :
    ∃ b, b ≠ [] ∧ descend sm v b = some w := by
  induction h with
  | single hstep =>
    obtain ⟨side, hs⟩ := (references_iff_child sm _ _).1 hstep
    exact ⟨[side], by simp, by simp only [descend]; exact hs⟩
  | tail _ hstep ih =>
    obtain ⟨b, -, hb⟩ := ih
    obtain ⟨side, hs⟩ := (references_iff_child sm _ _).1 hstep
    exact ⟨side :: b, by simp, by simp only [descend, hb]; exact hs⟩

/-- In a validated map, what the root reaches is declared and lies on no cycle. -/
theorem validated_reachable (sm : ScaleMap) (root : ScaleName) (hv : Validated sm root)
    (v : ScaleName) (h : Reachable sm root v) : v ∈ keys sm ∧ ¬ OnCycle sm v := by
  obtain ⟨a, ha⟩ := reachable_descend sm root v h
  refine ⟨descend_mem_keys sm root hv a v ha, ?_⟩
  intro hc
  obtain ⟨b, hne, hb⟩ := on_cycle_descend sm v v hc
  have hba : descend sm root (b ++ a) = some v := by
    rw [descend_append, ha]
    exact hb
  have := descend_injective sm root hv _ _ v hba ha
  have hlen := congrArg List.length this
  simp only [List.length_append] at hlen
  exact hne (List.length_eq_zero.1 (by omega))

/-! ## Balancing an accepted input -/

/-- C6: for every accepted input with fewer than `2 ^ 64 - 1` pan references,
`balance_scale` on the returned map and root with an empty result returns
normally at every fuel that reaches the number of scales (the recursion is no
deeper than that): it raises neither the unknown-scale error nor the
duplicate-scale-name error. -/
theorem accepted_input_balances (lines : List String) (sm : ScaleMap) (root : ScaleName)
    (h : parse_input_file lines = .ok (sm, root)) (hb : pan_references lines < 2 ^ 64 - 1)
    (fuel : Nat) (hf : sm.length ≤ fuel) :
    (∃ w bm, balance_scale fuel sm root [] = .ok (w, bm)) ∧
    (∀ name, balance_scale fuel sm root [] ≠ .error (.unknownScale name)) ∧
    (∀ name, balance_scale fuel sm root [] ≠ .error (.unexpectedDuplicate name)) := by
  obtain ⟨w, bm, hok⟩ := balance_scale_validated sm root
    (accepted_validated lines sm root h hb).2.2 fuel hf
  refine ⟨⟨w, bm, hok⟩, ?_, ?_⟩ <;> intro name <;> rw [hok] <;> simp

/-- C6 on the input `a b c`, `b 5 5`, `c 2 8` with fuel `3`. -/
theorem accepted_input_balances_witness :
    pan_references ["a b c", "b 5 5", "c 2 8"] < 2 ^ 64 - 1 ∧
    ∃ w bm, balance_scale 3 [("a", ⟨.scale "b", .scale "c"⟩), ("b", ⟨.mass 5, .mass 5⟩),
      ("c", ⟨.mass 2, .mass 8⟩)] "a" [] = .ok (w, bm) :=
  ⟨by decide, (accepted_input_balances ["a b c", "b 5 5", "c 2 8"]
    [("a", ⟨.scale "b", .scale "c"⟩), ("b", ⟨.mass 5, .mass 5⟩), ("c", ⟨.mass 2, .mass 8⟩)]
    "a" rfl (by decide) 3 (by decide)).1⟩

/-- C2, counterexample: the input `r 1 2`, `a b 1`, `b a 1` is accepted with root
`r`; balancing from `r` returns a result whose only key is `r`, while the scale map
also declares `a` and `b`. -/
theorem result_misses_scales_on_a_cycle :
    parse_input_file ["r 1 2", "a b 1", "b a 1"]
      = .ok ([("r", ⟨.mass 1, .mass 2⟩), ("a", ⟨.scale "b", .mass 1⟩),
              ("b", ⟨.scale "a", .mass 1⟩)], "r") ∧
    (∀ fuel, balance_scale (fuel + 1) [("r", ⟨.mass 1, .mass 2⟩), ("a", ⟨.scale "b", .mass 1⟩),
        ("b", ⟨.scale "a", .mass 1⟩)] "r" [] = .ok (5, [("r", ⟨1, 0⟩)])) ∧
    "a" ∈ keys [("r", (⟨.mass 1, .mass 2⟩ : ScaleDescription)), ("a", ⟨.scale "b", .mass 1⟩),
        ("b", ⟨.scale "a", .mass 1⟩)] ∧
    "a" ∉ keys [("r", (⟨1, 0⟩ : BalanceMasses))] :=
  ⟨rfl, fun _ => rfl, by decide, by decide⟩

/-- C2, amended: for every accepted input with fewer than `2 ^ 64 - 1` pan
references, `balance_scale` from the returned root with an empty result returns
normally (at every fuel that reaches the number of scales) and the result has
exactly one entry per declared scale that is reachable from the root by pan
references: its keys are distinct, they are the reachable scales, all of them are
keys of the scale map, and the two key sets are equal when every declared scale is
reachable from the root. -/
theorem result_keys_are_the_reachable_scales (lines : List String) (sm : ScaleMap)
    (root : ScaleName) (h : parse_input_file lines = .ok (sm, root))
    (hb : pan_references lines < 2 ^ 64 - 1) (fuel : Nat) (hf : sm.length ≤ fuel) :
    ∃ w bm, balance_scale fuel sm root [] = .ok (w, bm) ∧ (keys bm).Nodup ∧
      (∀ k, k ∈ keys bm ↔ Reachable sm root k) ∧
      (∀ k ∈ keys bm, k ∈ keys sm) ∧
      ((∀ k ∈ keys sm, Reachable sm root k) → ∀ k, k ∈ keys bm ↔ k ∈ keys sm) := by
  have hv := (accepted_validated lines sm root h hb).2.2
  obtain ⟨w, bm, hok⟩ := balance_scale_validated sm root hv fuel hf
  have hkeys : ∀ k, k ∈ keys bm ↔ Reachable sm root k := by
    intro k
    rw [(balance_scale_keys fuel sm root [] bm w hok).2 k]
    simp [keys]
  refine ⟨w, bm, hok, balance_scale_nodup fuel sm root [] bm w hok (by simp [keys]),
    hkeys, ?_, ?_⟩
  · intro k hk
    exact (validated_reachable sm root hv k ((hkeys k).1 hk)).1
  · intro hall k
    exact ⟨fun hk => (validated_reachable sm root hv k ((hkeys k).1 hk)).1,
      fun hk => (hkeys k).2 (hall k hk)⟩

/-- The amended C2 on the input `a b c`, `b 5 5`, `c 2 8` with fuel `3`. -/
theorem result_keys_are_the_reachable_scales_witness :
    pan_references ["a b c", "b 5 5", "c 2 8"] < 2 ^ 64 - 1 ∧
    ∃ w bm, balance_scale 3 [("a", ⟨.scale "b", .scale "c"⟩), ("b", ⟨.mass 5, .mass 5⟩),
        ("c", ⟨.mass 2, .mass 8⟩)] "a" [] = .ok (w, bm) ∧ (keys bm).Nodup ∧
      (∀ k, k ∈ keys bm ↔ Reachable [("a", ⟨.scale "b", .scale "c"⟩),
        ("b", ⟨.mass 5, .mass 5⟩), ("c", ⟨.mass 2, .mass 8⟩)] "a" k) ∧
      (∀ k ∈ keys bm, k ∈ keys [("a", (⟨.scale "b", .scale "c"⟩ : ScaleDescription)),
        ("b", ⟨.mass 5, .mass 5⟩), ("c", ⟨.mass 2, .mass 8⟩)]) :=
  have h := result_keys_are_the_reachable_scales ["a b c", "b 5 5", "c 2 8"]
    [("a", ⟨.scale "b", .scale "c"⟩), ("b", ⟨.mass 5, .mass 5⟩), ("c", ⟨.mass 2, .mass 8⟩)]
    "a" rfl (by decide) 3 (by decide)
  ⟨by decide, h.imp fun _ hw => hw.imp fun _ hbm => ⟨hbm.1, hbm.2.1, hbm.2.2.1, hbm.2.2.2.1⟩⟩

/-! ## The shape of an accepted input -/

/-- C3, counterexample: the input `r 1 1`, `a a 1` is accepted with root `r`,
although the declared scale `a` references itself and is not reachable from `r`. -/
theorem accepted_input_with_a_cycle :
    parse_input_file ["r 1 1", "a a 1"]
      = .ok ([("r", ⟨.mass 1, .mass 1⟩), ("a", ⟨.scale "a", .mass 1⟩)], "r") ∧
    "a" ∈ keys [("r", (⟨.mass 1, .mass 1⟩ : ScaleDescription)), ("a", ⟨.scale "a", .mass 1⟩)] ∧
    OnCycle [("r", ⟨.mass 1, .mass 1⟩), ("a", ⟨.scale "a", .mass 1⟩)] "a" ∧
    ¬ Reachable [("r", ⟨.mass 1, .mass 1⟩), ("a", ⟨.scale "a", .mass 1⟩)] "r" "a" := by
  refine ⟨rfl, by decide, ?_, ?_⟩
  · exact Relation.TransGen.single ⟨⟨.scale "a", .mass 1⟩, by decide, by decide⟩
  · intro hr
    rcases (reachable_iff _ _ _).1 hr with h | ⟨c, ⟨d, hd, hc⟩, -⟩
    · exact absurd h (by decide)
    · have hd' : d = ⟨.mass 1, .mass 1⟩ := by
        have : find [("r", (⟨.mass 1, .mass 1⟩ : ScaleDescription)),
            ("a", ⟨.scale "a", .mass 1⟩)] "r" = some ⟨.mass 1, .mass 1⟩ := by decide
        rw [this] at hd
        exact (Option.some.inj hd).symm
      subst hd'
      simp [pan_refs, pan_ref] at hc

/-- C3, amended: for every accepted input with fewer than `2 ^ 64 - 1` pan
references, the scales reachable from the returned root form a rooted tree: the
root is declared and referenced by no pan, every scale reachable from the root is
declared, lies on no cycle of pan references and is reached from the root by
exactly one path, and every declared scale other than the root is referenced by
exactly one pan. Declared scales that the root does not reach are not excluded. -/
theorem reachable_scales_form_a_tree (lines : List String) (sm : ScaleMap) (root : ScaleName)
    (h : parse_input_file lines = .ok (sm, root)) (hb : pan_references lines < 2 ^ 64 - 1) :
    root ∈ keys sm ∧ (∀ p, ¬ References sm p root) ∧
    (∀ v, Reachable sm root v → v ∈ keys sm ∧ ¬ OnCycle sm v) ∧
    (∀ a b v, descend sm root a = some v → descend sm root b = some v → a = b) ∧
    (∀ n ∈ keys sm, n ≠ root → (map_refs sm).count n = 1) := by
  have hv := (accepted_validated lines sm root h hb).2.2
  refine ⟨hv.2.1, ?_, validated_reachable sm root hv, descend_injective sm root hv, hv.2.2.2.1⟩
  intro p hp
  obtain ⟨side, hs⟩ := (references_iff_child sm p root).1 hp
  have := List.count_pos_iff.2 (child_mem_refs sm p root side hs)
  have := hv.2.2.1
  omega

/-- The amended C3 on the input `a b c`, `b 5 5`, `c 2 8`. -/
theorem reachable_scales_form_a_tree_witness :
    pan_references ["a b c", "b 5 5", "c 2 8"] < 2 ^ 64 - 1 ∧
    ∀ v, Reachable [("a", ⟨.scale "b", .scale "c"⟩), ("b", ⟨.mass 5, .mass 5⟩),
        ("c", ⟨.mass 2, .mass 8⟩)] "a" v →
      v ∈ keys [("a", (⟨.scale "b", .scale "c"⟩ : ScaleDescription)),
        ("b", ⟨.mass 5, .mass 5⟩), ("c", ⟨.mass 2, .mass 8⟩)] ∧
      ¬ OnCycle [("a", ⟨.scale "b", .scale "c"⟩), ("b", ⟨.mass 5, .mass 5⟩),
        ("c", ⟨.mass 2, .mass 8⟩)] v :=
  ⟨by decide, (reachable_scales_form_a_tree ["a b c", "b 5 5", "c 2 8"]
    [("a", ⟨.scale "b", .scale "c"⟩), ("b", ⟨.mass 5, .mass 5⟩), ("c", ⟨.mass 2, .mass 8⟩)]
    "a" rfl (by decide)).2.2.1⟩

/-! ## Well-formed lines -/

theorem fields_three (line nm ls rs : String) (h : fields line = [nm, ls, rs]) :
    is_skipped line = false ∧ ∃ rest1 rest2 rest3,
      extract (replace_commas line).data = some (nm, rest1) ∧
      extract rest1 = some (ls, rest2) ∧ extract rest2 = some (rs, rest3) := by
  unfold fields at h
  split at h
  · exact absurd h (by simp)
  · rename_i hs
    split at h
    · exact absurd h (by simp)
    · rename_i t1 rest1 h1
      split at h
      · exact absurd h (by simp)
      · rename_i t2 rest2 h2
        split at h
        · exact absurd h (by simp)
        · rename_i t3 rest3 h3
          simp only [List.cons.injEq, and_true] at h
          obtain ⟨rfl, rfl, rfl⟩ := h
          exact ⟨by simpa using hs, rest1, rest2, rest3, h1, h2, h3⟩

/-- A pan token that starts with a digit and is in range, or starts with a letter,
is read whatever the tracker. -/
theorem read_pan_of_well_formed (line : String) (t : LinkTracker) (tok : String)
    (h : (is_mass_in_range tok || is_reference tok) = true) :
    ∃ p t', read_pan line t tok = .ok (p, t') := by
  rw [Bool.or_eq_true] at h
  unfold read_pan
  rcases h with h | h
  · unfold is_mass_in_range at h
    split at h
    · exact absurd h (by simp)
    · rename_i c cs hc
      simp only [Bool.and_eq_true, decide_eq_true_eq] at h
      simp only [h.1, if_true, stoull, if_pos h.2]
      exact ⟨_, _, rfl⟩
  · unfold is_reference at h
    split at h
    · exact absurd h (by simp)
    · rename_i c cs hc
      have hd : isdigit c = false := by
        cases hdc : isdigit c with
        | false => rfl
        | true => rw [isalpha_of_isdigit c hdc] at h; exact absurd h (by simp)
      simp only [hd, h, if_true, Bool.false_eq_true, if_false]
      exact ⟨_, _, rfl⟩

/-- A well-formed line that is not skipped declares a name; the loop body rejects
it as a duplicate when the name is in the scale map and accepts it otherwise. -/
theorem process_line_of_well_formed (line : String) (hw : well_formed line = true)
    (hs : is_skipped line = false) :
    ∃ nm ls rs, fields line = [nm, ls, rs] ∧ ∀ st : ParseState,
      (nm ∈ keys st.scale_map → process_line st line = .error (.duplicateScaleName nm)) ∧
      (nm ∉ keys st.scale_map → ∃ st', process_line st line = .ok st') := by
  unfold well_formed at hw
  rw [hs, Bool.false_or] at hw
  split at hw
  · rename_i nm ls rs hf
    rw [Bool.and_eq_true] at hw
    refine ⟨nm, ls, rs, hf, fun st => ?_⟩
    obtain ⟨-, rest1, rest2, rest3, h1, h2, h3⟩ := fields_three line nm ls rs hf
    obtain ⟨l, t2, hl⟩ := read_pan_of_well_formed (replace_commas line)
      (tracker_update increment st.scale_link_tracker nm) ls hw.1
    obtain ⟨r, t3, hr⟩ := read_pan_of_well_formed (replace_commas line) t2 rs hw.2
    have hp : process_line st line = match emplace st.scale_map nm ⟨l, r⟩ with
        | none => .error (.duplicateScaleName nm)
        | some scale_map => .ok ⟨scale_map, t3⟩ := by
      unfold process_line
      simp only [hs, Bool.false_eq_true, if_false, h1, h2, h3, hl, hr]
    constructor
    · intro hm
      rw [hp, emplace_of_mem _ _ _ hm]
    · intro hm
      rw [hp, emplace_of_not_mem _ _ _ hm]
      exact ⟨_, rfl⟩
  · exact absurd hw (by simp)

theorem process_line_of_skipped (line : String) (hs : is_skipped line = true)
    (st : ParseState) : process_line st line = .ok st ∧ declared_name line = none := by
  constructor
  · unfold process_line
    simp [hs]
  · simp [declared_name, fields, hs]

/-- On well-formed lines the loop stops at the first repeated name with the
duplicate error, and runs to the end when no name is repeated. -/
theorem parse_lines_of_well_formed (lines : List String) :
    ∀ st : ParseState, (∀ line ∈ lines, well_formed line = true) →
      (∀ n, first_repeated (keys st.scale_map) (declared_names lines) = some n →
        parse_lines st lines = .error (.duplicateScaleName n)) ∧
      (first_repeated (keys st.scale_map) (declared_names lines) = none →
        ∃ st', parse_lines st lines = .ok st') := by
  induction lines with
  | nil =>
    intro st _
    simp [declared_names, first_repeated, parse_lines]
  | cons line rest ih =>
    intro st hw
    have hw1 := hw line (List.mem_cons_self _ _)
    have hw2 : ∀ l ∈ rest, well_formed l = true := fun l hl => hw l (List.mem_cons_of_mem _ hl)
    cases hs : is_skipped line with
    | true =>
      obtain ⟨hp, hd⟩ := process_line_of_skipped line hs st
      have hdn : declared_names (line :: rest) = declared_names rest := by
        simp [declared_names, hd]
      rw [hdn]
      simp only [parse_lines, hp]
      exact ih st hw2
    | false =>
      obtain ⟨nm, ls, rs, hf, hst⟩ := process_line_of_well_formed line hw1 hs
      have hdn : declared_names (line :: rest) = nm :: declared_names rest := by
        simp [declared_names, declared_name, hf]
      rw [hdn]
      by_cases hm : nm ∈ keys st.scale_map
      · simp only [first_repeated, hm, if_true, Option.some.injEq, parse_lines,
          (hst st).1 hm]
        exact ⟨fun n hn => by rw [hn], fun h => absurd h (by simp)⟩
      · obtain ⟨st1, h1⟩ := (hst st).2 hm
        have hk : keys st1.scale_map = keys st.scale_map ++ [nm] := by
          rw [(process_line_state st st1 line h1).1]
          simp [declared_name, hf]
        simp only [first_repeated, hm, if_false, parse_lines, h1]
        rw [← hk]
        exact ih st1 hw2

theorem first_repeated_none (names : List ScaleName) :
    ∀ seen : List ScaleName, (seen ++ names).Nodup → first_repeated seen names = none := by
  induction names with
  | nil => intro seen _; rfl
  | cons x rest ih =>
    intro seen h
    have hx : x ∉ seen := by
      intro hx
      rw [List.nodup_append] at h
      exact h.2.2 hx (List.mem_cons_self _ _)
    simp only [first_repeated, hx, if_false]
    apply ih
    simpa using h

theorem first_repeated_some (names : List ScaleName) :
    ∀ seen : List ScaleName, seen.Nodup → ¬ (seen ++ names).Nodup →
      ∃ n, first_repeated seen names = some n := by
  induction names with
  | nil => intro seen h1 h2; simp at h2; exact absurd h1 h2
  | cons x rest ih =>
    intro seen h1 h2
    by_cases hx : x ∈ seen
    · exact ⟨x, by simp [first_repeated, hx]⟩
    · simp only [first_repeated, hx, if_false]
      apply ih
      · rw [List.nodup_append]
        refine ⟨h1, List.nodup_singleton _, ?_⟩
        intro a ha hb
        rw [List.mem_singleton] at hb
        subst hb
        exact hx ha
      · simpa using h2

/-! ## Duplicate declarations -/

/-- C9: every input in which two lines declare the same scale name is rejected; when
moreover every line is well formed, the error is the duplicate-scale-name error and
it names the first name that repeats an earlier declaration. -/
theorem duplicate_declaration_rejected (lines : List String)
    (hdup : ¬ (declared_names lines).Nodup) :
    (∃ e, parse_input_file lines = .error e) ∧
    ((∀ line ∈ lines, well_formed line = true) →
      ∃ name, first_repeated [] (declared_names lines) = some name ∧
        parse_input_file lines = .error (.duplicateScaleName name)) := by
  constructor
  · cases hp : parse_input_file lines with
    | error e => exact ⟨e, rfl⟩
    | ok p =>
      obtain ⟨sm, root⟩ := p
      obtain ⟨t, hl, -, -⟩ := parse_input_file_ok lines sm root hp
      obtain ⟨hk, -, hok⟩ := parse_lines_state lines _ _ hl
      have hn := (hok stateOK_init).1
      have hk' : keys sm = declared_names lines := hk
      dsimp only at hn
      rw [hk'] at hn
      exact absurd hn hdup
  · intro hw
    obtain ⟨n, hn⟩ := first_repeated_some (declared_names lines) [] List.nodup_nil
      (by simpa using hdup)
    refine ⟨n, hn, ?_⟩
    have := (parse_lines_of_well_formed lines ⟨[], []⟩ hw).1 n hn
    unfold parse_input_file
    rw [this]

/-- C9 on the input `A 1 2`, `B 3 4`, `A 5 6`. -/
theorem duplicate_declaration_rejected_witness :
    ¬ (declared_names ["A 1 2", "B 3 4", "A 5 6"]).Nodup ∧
    (∀ line ∈ ["A 1 2", "B 3 4", "A 5 6"], well_formed line = true) ∧
    ∃ name, first_repeated [] (declared_names ["A 1 2", "B 3 4", "A 5 6"]) = some name ∧
      parse_input_file ["A 1 2", "B 3 4", "A 5 6"] = .error (.duplicateScaleName name) :=
  ⟨by decide, by decide,
    (duplicate_declaration_rejected ["A 1 2", "B 3 4", "A 5 6"] (by decide)).2 (by decide)⟩

/-! ## The names with a non-zero counter -/

theorem mem_keys_ill_formed (t : LinkTracker) (ht : TrackerOK t) (n : ScaleName) :
    n ∈ keys (ill_formed_scales t) ↔ counter t n ≠ 0 := by
  unfold ill_formed_scales keys counter
  rw [List.mem_map]
  constructor
  · rintro ⟨⟨k, v⟩, hm, rfl⟩
    rw [List.mem_filter] at hm
    rw [mem_find_of_nodup t k v ht.1 hm.1]
    simpa using hm.2
  · intro h
    cases hf : find t n with
    | none => rw [hf] at h; exact absurd rfl h
    | some v =>
      rw [hf] at h
      exact ⟨(n, v), List.mem_filter.2 ⟨find_some_mem t n v hf, by simpa using h⟩, rfl⟩

theorem nodup_keys_ill_formed (t : LinkTracker) (ht : TrackerOK t) :
    (keys (ill_formed_scales t)).Nodup := by
  unfold ill_formed_scales keys
  exact ht.1.sublist (List.Sublist.map _ (List.filter_sublist _))

theorem find_root_multiple (st : ParseState) (hsm : st.scale_map ≠ [])
    (hlen : (ill_formed_scales st.scale_link_tracker).length ≠ 1) :
    find_root st
      = .error (.multipleIllFormed (keys (ill_formed_scales st.scale_link_tracker))) := by
  unfold find_root
  split
  · rename_i h; exact absurd h hsm
  · split
    · rename_i name count h
      rw [h] at hlen
      exact absurd rfl hlen
    · rfl

/-- The counter that the code keeps is the net counter modulo `2 ^ 64`. -/
theorem counter_eq_net_counter (lines : List String) (st : ParseState)
    (h : parse_lines ⟨[], []⟩ lines = .ok st) (n : ScaleName) :
    (counter st.scale_link_tracker n : Int) = net_counter lines n % (WORD : Int) := by
  obtain ⟨hk, hr, hok⟩ := parse_lines_state lines _ _ h
  obtain ⟨-, ⟨htn, htb⟩, hc⟩ := hok stateOK_init
  have hk' : keys st.scale_map = declared_names lines := hk
  have hr' : map_refs st.scale_map = pan_reference_list lines := hr
  have hcn := hc n
  rw [hk', hr'] at hcn
  have hlt : counter st.scale_link_tracker n < WORD := by
    unfold counter
    cases hf : find st.scale_link_tracker n with
    | none => exact (by decide : (0 : Nat) < WORD)
    | some v => exact htb (n, v) (find_some_mem _ n v hf)
  unfold net_counter reference_count
  simp only [WORD] at hcn hlt ⊢
  push_cast
  omega

/-- The names that the code collects as ill formed are the names whose net counter
is not zero modulo `2 ^ 64`, in some order. -/
theorem ill_formed_perm_nonzero (lines : List String) (st : ParseState)
    (h : parse_lines ⟨[], []⟩ lines = .ok st) :
    (keys (ill_formed_scales st.scale_link_tracker)).Perm (nonzero_names_wrapped lines) := by
  have ht : TrackerOK st.scale_link_tracker :=
    ((parse_lines_state lines _ _ h).2.2 stateOK_init).2.1
  have hnd : (nonzero_names_wrapped lines).Nodup := (List.nodup_dedup _).filter _
  rw [List.perm_ext_iff_of_nodup (nodup_keys_ill_formed _ ht) hnd]
  intro n
  rw [mem_keys_ill_formed _ ht]
  have hc := counter_eq_net_counter lines st h n
  unfold nonzero_names_wrapped mentioned_names
  rw [List.mem_filter, List.mem_dedup, List.mem_append]
  simp only [decide_eq_true_eq]
  constructor
  · intro hne
    have hnet : net_counter lines n % (WORD : Int) ≠ 0 := by
      rw [← hc]
      exact_mod_cast hne
    refine ⟨?_, hnet⟩
    by_contra hmem
    rw [not_or] at hmem
    apply hnet
    unfold net_counter reference_count
    rw [List.count_eq_zero.2 hmem.1, List.count_eq_zero.2 hmem.2]
    simp
  · rintro ⟨-, hnet⟩ h0
    apply hnet
    rw [← hc, h0]
    rfl

/-- With fewer than `2 ^ 64` pan references and distinct declared names, a net
counter is zero modulo `2 ^ 64` only when it is zero. -/
theorem nonzero_names_eq_wrapped (lines : List String) (hnd : (declared_names lines).Nodup)
    (hb : pan_references lines < 2 ^ 64) : nonzero_names lines = nonzero_names_wrapped lines := by
  unfold nonzero_names nonzero_names_wrapped
  apply List.filter_congr
  intro n _
  have h1 : (declared_names lines).count n ≤ 1 := List.nodup_iff_count_le_one.1 hnd n
  have h2 : (pan_reference_list lines).count n ≤ (pan_reference_list lines).length :=
    List.count_le_length _ _
  unfold pan_references at hb
  have : net_counter lines n ≠ 0 ↔ net_counter lines n % (WORD : Int) ≠ 0 := by
    unfold net_counter reference_count
    simp only [WORD]
    push_cast
    omega
  simp only [this]

/-! ## Several roots or none -/

/-- C10: for every input whose lines are all well formed, declare distinct names and
declare at least one, if the number of names whose net counter (declarations minus
references) is not zero is anything other than exactly one, `parse_input_file` fails
with the multiple-ill-formed-scales error, which lists those names. The net counter
is taken as the code keeps it, modulo `2 ^ 64`, or as the signed integer when the
input has fewer than `2 ^ 64` pan references, where the two agree. -/
theorem zero_or_several_nonzero_counters_rejected (lines : List String)
    (hw : ∀ line ∈ lines, well_formed line = true) (hnd : (declared_names lines).Nodup)
    (hne : declared_names lines ≠ [])
    (hcount : (nonzero_names_wrapped lines).length ≠ 1 ∨
      (pan_references lines < 2 ^ 64 ∧ (nonzero_names lines).length ≠ 1)) :
    ∃ names, parse_input_file lines = .error (.multipleIllFormed names) ∧
      names.Perm (nonzero_names_wrapped lines) := by
  have hcount' : (nonzero_names_wrapped lines).length ≠ 1 := by
    rcases hcount with h | ⟨hb, h⟩
    · exact h
    · rwa [nonzero_names_eq_wrapped lines hnd hb] at h
  obtain ⟨st, hst⟩ := (parse_lines_of_well_formed lines ⟨[], []⟩ hw).2
    (first_repeated_none _ [] (by simpa [keys] using hnd))
  have hk : keys st.scale_map = declared_names lines := (parse_lines_state lines _ _ hst).1
  have hsm : st.scale_map ≠ [] := by
    intro h0
    rw [h0] at hk
    exact hne hk.symm
  have hperm := ill_formed_perm_nonzero lines st hst
  have hlen : (ill_formed_scales st.scale_link_tracker).length ≠ 1 := by
    have := hperm.length_eq
    simp only [keys, List.length_map] at this
    rw [this]
    exact hcount'
  refine ⟨keys (ill_formed_scales st.scale_link_tracker), ?_, hperm⟩
  unfold parse_input_file
  rw [hst]
  exact find_root_multiple st hsm hlen

/-- C10 on two independent scales, `a 1 2` and `b 3 4`, which make two roots, and on
the two scales `a b 1` and `b a 1`, where no counter is left non-zero. -/
theorem zero_or_several_nonzero_counters_rejected_witness :
    ((∀ line ∈ ["a 1 2", "b 3 4"], well_formed line = true) ∧
      (declared_names ["a 1 2", "b 3 4"]).Nodup ∧ declared_names ["a 1 2", "b 3 4"] ≠ [] ∧
      (nonzero_names ["a 1 2", "b 3 4"]).length = 2 ∧
      ∃ names, parse_input_file ["a 1 2", "b 3 4"] = .error (.multipleIllFormed names) ∧
        names.Perm (nonzero_names_wrapped ["a 1 2", "b 3 4"])) ∧
    ((nonzero_names ["a b 1", "b a 1"]).length = 0 ∧
      ∃ names, parse_input_file ["a b 1", "b a 1"] = .error (.multipleIllFormed names) ∧
        names.Perm (nonzero_names_wrapped ["a b 1", "b a 1"])) :=
  ⟨⟨by decide, by decide, by decide, by decide,
    zero_or_several_nonzero_counters_rejected ["a 1 2", "b 3 4"] (by decide) (by decide)
      (by decide) (Or.inr ⟨by decide, by decide⟩)⟩,
   ⟨by decide,
    zero_or_several_nonzero_counters_rejected ["a b 1", "b a 1"] (by decide) (by decide)
      (by decide) (Or.inr ⟨by decide, by decide⟩)⟩⟩

/-! ## A single name with a non-zero counter -/

theorem find_root_single (st : ParseState) (hsm : st.scale_map ≠ []) (n : ScaleName) (c : Nat)
    (hill : ill_formed_scales st.scale_link_tracker = [(n, c)]) :
    find_root st = if c ≠ 1 then .error (.notRootScale n) else .ok (st.scale_map, n) := by
  unfold find_root
  split
  · rename_i h; exact absurd h hsm
  · rw [hill]

/-- When the loop ends without error, the code finds a single ill-formed scale
exactly when a single name has a net counter that is not zero modulo `2 ^ 64`; the
value found is that net counter modulo `2 ^ 64`. -/
theorem single_ill_formed_iff (lines : List String) (st : ParseState)
    (h : parse_lines ⟨[], []⟩ lines = .ok st) (n : ScaleName) :
    nonzero_names_wrapped lines = [n] ↔
      ∃ c : Nat, ill_formed_scales st.scale_link_tracker = [(n, c)] ∧
        (c : Int) = net_counter lines n % (WORD : Int) := by
  have hperm := ill_formed_perm_nonzero lines st h
  have ht : TrackerOK st.scale_link_tracker :=
    ((parse_lines_state lines _ _ h).2.2 stateOK_init).2.1
  constructor
  · intro hn
    rw [hn, List.perm_singleton] at hperm
    cases hill : ill_formed_scales st.scale_link_tracker with
    | nil => rw [hill] at hperm; simp [keys] at hperm
    | cons e rest =>
      rw [hill] at hperm
      obtain ⟨k, c⟩ := e
      simp only [keys, List.map_cons, List.cons.injEq, List.map_eq_nil_iff] at hperm
      obtain ⟨rfl, rfl⟩ := hperm
      refine ⟨c, rfl, ?_⟩
      rw [← counter_eq_net_counter lines st h k,
        (counters_of_single_ill_formed _ k c ht.1 hill).1]
  · rintro ⟨c, hill, -⟩
    rw [hill] at hperm
    exact List.perm_singleton.1 (hperm.symm)

/-- Within the bounds of an input that the loop accepts, a net counter is `1` modulo
`2 ^ 64` only when it is `1`. -/
theorem net_counter_mod_eq_one (lines : List String) (hnd : (declared_names lines).Nodup)
    (hb : pan_references lines < 2 ^ 64 - 1) (n : ScaleName) :
    net_counter lines n % (WORD : Int) = 1 ↔ net_counter lines n = 1 := by
  have h1 : (declared_names lines).count n ≤ 1 := List.nodup_iff_count_le_one.1 hnd n
  have h2 : (pan_reference_list lines).count n ≤ (pan_reference_list lines).length :=
    List.count_le_length _ _
  unfold pan_references at hb
  unfold net_counter reference_count
  simp only [WORD]
  push_cast
  omega

/-! ## A single candidate that is not a root -/

/-- C11: for every input whose lines are all well formed, declare distinct names and
declare at least one, if exactly one name has a non-zero net counter and that counter
is not `+1`, `parse_input_file` fails with the ill-formed-scale-is-not-a-root error
naming that scale. The net counter is taken as the code keeps it, modulo `2 ^ 64`,
or as the signed integer when the input has fewer than `2 ^ 64 - 1` pan references,
where the two agree. -/
theorem single_candidate_not_a_root_rejected (lines : List String) (name : ScaleName)
    (hw : ∀ line ∈ lines, well_formed line = true) (hnd : (declared_names lines).Nodup)
    (hne : declared_names lines ≠ [])
    (hcount : (nonzero_names_wrapped lines = [name] ∧
        net_counter lines name % (WORD : Int) ≠ 1) ∨
      (pan_references lines < 2 ^ 64 - 1 ∧ nonzero_names lines = [name] ∧
        net_counter lines name ≠ 1)) :
    parse_input_file lines = .error (.notRootScale name) := by
  have hcount' : nonzero_names_wrapped lines = [name] ∧
      net_counter lines name % (WORD : Int) ≠ 1 := by
    rcases hcount with h | ⟨hb, h1, h2⟩
    · exact h
    · rw [nonzero_names_eq_wrapped lines hnd (by omega)] at h1
      exact ⟨h1, fun h => h2 ((net_counter_mod_eq_one lines hnd hb name).1 h)⟩
  obtain ⟨st, hst⟩ := (parse_lines_of_well_formed lines ⟨[], []⟩ hw).2
    (first_repeated_none _ [] (by simpa [keys] using hnd))
  have hk : keys st.scale_map = declared_names lines := (parse_lines_state lines _ _ hst).1
  have hsm : st.scale_map ≠ [] := by
    intro h0
    rw [h0] at hk
    exact hne hk.symm
  obtain ⟨c, hill, hc⟩ := (single_ill_formed_iff lines st hst name).1 hcount'.1
  have hc1 : c ≠ 1 := by
    intro h1
    apply hcount'.2
    rw [← hc, h1]
    rfl
  unfold parse_input_file
  rw [hst]
  simp only []
  rw [find_root_single st hsm name c hill, if_pos hc1]

/-- C11 on the input `r a a`, `a r 1`, where `a` is referenced twice: its net counter
is `-1` and it is the only one that is not zero. -/
theorem single_candidate_not_a_root_rejected_witness :
    (∀ line ∈ ["r a a", "a r 1"], well_formed line = true) ∧
    (declared_names ["r a a", "a r 1"]).Nodup ∧ declared_names ["r a a", "a r 1"] ≠ [] ∧
    nonzero_names ["r a a", "a r 1"] = ["a"] ∧ net_counter ["r a a", "a r 1"] "a" = -1 ∧
    parse_input_file ["r a a", "a r 1"] = .error (.notRootScale "a") :=
  ⟨by decide, by decide, by decide, by decide, by decide,
    single_candidate_not_a_root_rejected ["r a a", "a r 1"] "a" (by decide) (by decide)
      (by decide) (Or.inr ⟨by decide, by decide, by decide⟩)⟩

/-! ## Skipped lines, blank lines, and inputs without a declaration -/

theorem parse_lines_append (a b : List String) :
    ∀ st : ParseState, parse_lines st (a ++ b) =
      match parse_lines st a with
      | .error e => .error e
      | .ok st1 => parse_lines st1 b := by
  induction a with
  | nil => intro st; rfl
  | cons line rest ih =>
    intro st
    simp only [List.cons_append, parse_lines]
    cases process_line st line with
    | error e => rfl
    | ok st1 => exact ih st1

theorem parse_lines_filter_skipped (lines : List String) :
    ∀ st : ParseState,
      parse_lines st (lines.filter (fun l => !is_skipped l)) = parse_lines st lines := by
  induction lines with
  | nil => intro st; rfl
  | cons line rest ih =>
    intro st
    cases hs : is_skipped line with
    | true =>
      simp only [List.filter_cons, hs, Bool.not_true, Bool.false_eq_true, if_false,
        parse_lines, (process_line_of_skipped line hs st).1]
      exact ih st
    | false =>
      simp only [List.filter_cons, hs, Bool.not_false, if_true, parse_lines]
      cases process_line st line with
      | error e => rfl
      | ok st1 => exact ih st1

/-- C12: two inputs that differ only by lines that are empty or start with `#`,
inserted or removed at any positions, have the same outcome: the same scale map and
root, or the same error. -/
theorem skipped_lines_do_not_matter (lines1 lines2 : List String)
    (h : lines1.filter (fun l => !is_skipped l) = lines2.filter (fun l => !is_skipped l)) :
    parse_input_file lines1 = parse_input_file lines2 := by
  unfold parse_input_file
  rw [← parse_lines_filter_skipped lines1, ← parse_lines_filter_skipped lines2, h]

/-- C12 on the input `a b c`, `b 5 5`, `c 2 8` with an empty line and two comment lines
inserted. -/
theorem skipped_lines_do_not_matter_witness :
    parse_input_file ["# tree", "a b c", "", "b 5 5", "#", "c 2 8"]
      = parse_input_file ["a b c", "b 5 5", "c 2 8"] :=
  skipped_lines_do_not_matter ["# tree", "a b c", "", "b 5 5", "#", "c 2 8"]
    ["a b c", "b 5 5", "c 2 8"] (by decide)

theorem isspace_ne_special (c : Char) (h : isspace c = true) : c ≠ '#' ∧ c ≠ ',' := by
  constructor <;> rintro rfl <;> exact absurd h (by decide)

/-- A blank line is not skipped, holds no comma, and holds no token. -/
theorem blank_line_facts (w : String) (hb : is_blank w = true) :
    is_skipped w = false ∧ replace_commas w = w ∧ extract w.data = none := by
  obtain ⟨cs⟩ := w
  simp only [is_blank, Bool.and_eq_true, Bool.not_eq_true', List.all_eq_true] at hb
  obtain ⟨hne, hall⟩ := hb
  refine ⟨?_, ?_, ?_⟩
  · cases cs with
    | nil => simp at hne
    | cons c rest =>
      simp only [is_skipped, beq_eq_false_iff_ne, ne_eq]
      exact (isspace_ne_special c (hall c (List.mem_cons_self _ _))).1
  · have hmap : cs.map (fun c => if c = ',' then ' ' else c) = cs := by
      conv_rhs => rw [← List.map_id cs]
      apply List.map_congr_left
      intro c hc
      simp [(isspace_ne_special c (hall c hc)).2]
    simp only [replace_commas, hmap]
  · have : List.dropWhile isspace cs = [] := by
      rw [List.dropWhile_eq_nil_iff]
      exact hall
    simp [extract, this]

/-- C13, counterexample: the input `a 1 2` is accepted, and it is rejected once a
line made of a space, a tab and a carriage return is added. -/
theorem blank_line_changes_the_outcome :
    parse_input_file ["a 1 2"] = .ok ([("a", ⟨.mass 1, .mass 2⟩)], "a") ∧
    parse_input_file ["a 1 2", " \t\r"] = .error (.failedScaleName " \t\r") ∧
    parse_input_file ["a 1 2", " \t\r"] ≠ parse_input_file ["a 1 2"] := by
  refine ⟨rfl, rfl, ?_⟩
  intro h
  have h1 : parse_input_file ["a 1 2", " \t\r"] = .error (.failedScaleName " \t\r") := rfl
  have h2 : parse_input_file ["a 1 2"] = .ok ([("a", ⟨.mass 1, .mass 2⟩)], "a") := rfl
  rw [h1, h2] at h
  exact absurd h (by simp)

/-- C13, amended: only lines of zero length are ignored as blank. A line that is not
of zero length and consists only of whitespace characters is not ignored: wherever
it is added, the input is rejected, with the failed-to-read-scale-name error for
that line unless an earlier line already fails. -/
theorem blank_line_rejected (pre post : List String) (w : String) (hb : is_blank w = true) :
    parse_input_file (pre ++ w :: post) =
      match parse_lines ⟨[], []⟩ pre with
      | .error e => .error e
      | .ok _ => .error (.failedScaleName w) := by
  obtain ⟨h1, h2, h3⟩ := blank_line_facts w hb
  have hp : ∀ st, process_line st w = .error (.failedScaleName w) := by
    intro st
    unfold process_line
    simp only [h1, Bool.false_eq_true, if_false, h2, h3]
  unfold parse_input_file
  rw [parse_lines_append]
  cases parse_lines ⟨[], []⟩ pre with
  | error e => rfl
  | ok st => simp only [parse_lines, hp]

/-- The amended C13 on the input `a 1 2` followed by a line of one space. -/
theorem blank_line_rejected_witness :
    is_blank " " = true ∧
    parse_input_file (["a 1 2"] ++ " " :: []) = .error (.failedScaleName " ") :=
  ⟨by decide, blank_line_rejected ["a 1 2"] [] " " (by decide)⟩

/-- C16: an input in which every line is skipped (no line at all, or only empty lines
and `#` lines) is rejected with the no-scale-tree error; hence an accepted input
declares at least one scale, and the returned scale map, whose keys are the declared
names, is not empty. -/
theorem no_declaration_no_tree (lines : List String) :
    ((∀ line ∈ lines, is_skipped line = true) →
      parse_input_file lines = .error .noScaleTree) ∧
    (∀ sm root, parse_input_file lines = .ok (sm, root) →
      sm ≠ [] ∧ keys sm = declared_names lines ∧ declared_names lines ≠ []) := by
  constructor
  · intro hall
    have hf : lines.filter (fun l => !is_skipped l) = [] := by
      rw [List.filter_eq_nil_iff]
      intro l hl
      simp [hall l hl]
    unfold parse_input_file
    rw [← parse_lines_filter_skipped lines, hf]
    rfl
  · intro sm root h
    obtain ⟨t, hp, hsm, -⟩ := parse_input_file_ok lines sm root h
    have hk : keys sm = declared_names lines := (parse_lines_state lines _ _ hp).1
    refine ⟨hsm, hk, ?_⟩
    intro h0
    rw [h0] at hk
    cases sm with
    | nil => exact hsm rfl
    | cons e rest => simp [keys] at hk

/-- C16 on an input of an empty line and a comment line, and on the accepted input
`a 1 2`. -/
theorem no_declaration_no_tree_witness :
    parse_input_file ["", "# nothing"] = .error .noScaleTree ∧
    declared_names ["a 1 2"] ≠ [] :=
  ⟨(no_declaration_no_tree ["", "# nothing"]).1 (by decide),
    ((no_declaration_no_tree ["a 1 2"]).2 [("a", ⟨.mass 1, .mass 2⟩)] "a" rfl).2.2⟩

/-! ## The result from any start, and the weight of a balanced scale -/

/-- C18: for every scale map and start name, if `balance_scale` called with an empty
result returns normally, the keys of the result are exactly the scales reachable
from the start name by pan references, the start name included, each once, whatever
other scales the map holds. -/
theorem result_keys_from_any_start (fuel : Nat) (sm : ScaleMap) (start : ScaleName)
    (w : Mass) (bm : BalanceMap) (h : balance_scale fuel sm start [] = .ok (w, bm)) :
    (∀ k, k ∈ keys bm ↔ Reachable sm start k) ∧ (keys bm).Nodup := by
  refine ⟨fun k => ?_, balance_scale_nodup fuel sm start [] bm w h (by simp [keys])⟩
  rw [(balance_scale_keys fuel sm start [] bm w h).2 k]
  simp [keys]

/-- C18 on a map that holds, besides the start scale `r`, two scales `a` and `b` that
`r` does not reach. -/
theorem result_keys_from_any_start_witness :
    (∀ k, k ∈ keys [("r", (⟨1, 0⟩ : BalanceMasses))] ↔
      Reachable [("r", ⟨.mass 1, .mass 2⟩), ("a", ⟨.scale "b", .mass 1⟩),
        ("b", ⟨.scale "a", .mass 1⟩)] "r" k) ∧
    (keys [("r", (⟨1, 0⟩ : BalanceMasses))]).Nodup :=
  result_keys_from_any_start 1 [("r", ⟨.mass 1, .mass 2⟩), ("a", ⟨.scale "b", .mass 1⟩),
    ("b", ⟨.scale "a", .mass 1⟩)] "r" 5 [("r", ⟨1, 0⟩)] (by decide)

/-- C19: on every call of `balance_scale` that returns normally, the effective weight
returned is, modulo `2 ^ 64`, one unit for the scale plus the weights of its two pans
once the recorded masses are added to them. -/
theorem effective_weight_is_balanced_total (fuel : Nat) (sm : ScaleMap) (name : ScaleName)
    (bm bm' : BalanceMap) (w : Mass) (h : balance_scale fuel sm name bm = .ok (w, bm')) :
    ∃ fuel' d left_weight bm1 right_weight bm2 added,
      fuel = fuel' + 1 ∧ find sm name = some d ∧
      get_side_mass (balance_scale fuel' sm) d.m_left bm = .ok (left_weight, bm1) ∧
      get_side_mass (balance_scale fuel' sm) d.m_right bm1 = .ok (right_weight, bm2) ∧
      find bm' name = some added ∧
      w = (1 + (left_weight + added.m_left) + (right_weight + added.m_right)) % 2 ^ 64 ∧
      w % 2 ^ 64 = (1 + (left_weight + added.m_left) + (right_weight + added.m_right)) % 2 ^ 64
      := by
  cases fuel with
  | zero => simp [balance_scale] at h
  | succ fuel =>
    obtain ⟨d, l, bm1, r, bm2, hf, hl, hr, he, hw⟩ := balance_scale_succ_ok fuel sm name bm bm' w h
    obtain ⟨-, hfind, -, -⟩ := map_emplace_some _ _ _ _ he
    have key : w = (1 + (l + (if l < r then r - l else 0)) + (r + (if l > r then l - r else 0)))
        % 2 ^ 64 := by
      rw [hw, WORD]
      unfold Mass at *
      congr 1
      rcases Nat.lt_trichotomy l r with hlr | hlr | hlr
      · rw [if_pos hlr, if_neg (by omega), max_eq_right (by omega)]; omega
      · subst hlr; simp; omega
      · rw [if_neg (by omega), if_pos hlr, max_eq_left (by omega)]; omega
    refine ⟨fuel, d, l, bm1, r, bm2, _, rfl, hf, hl, hr, hfind, key, ?_⟩
    rw [key]
    exact Nat.mod_mod _ _

/-- C19 on a scale with pans `2` and `8`: the weight `17` is `1 + (2 + 6) + (8 + 0)`. -/
theorem effective_weight_is_balanced_total_witness :
    ∃ fuel' d left_weight bm1 right_weight bm2 added,
      1 = fuel' + 1 ∧ find [("c", (⟨.mass 2, .mass 8⟩ : ScaleDescription))] "c" = some d ∧
      get_side_mass (balance_scale fuel' [("c", ⟨.mass 2, .mass 8⟩)]) d.m_left []
        = .ok (left_weight, bm1) ∧
      get_side_mass (balance_scale fuel' [("c", ⟨.mass 2, .mass 8⟩)]) d.m_right bm1
        = .ok (right_weight, bm2) ∧
      find [("c", (⟨6, 0⟩ : BalanceMasses))] "c" = some added ∧
      17 = (1 + (left_weight + added.m_left) + (right_weight + added.m_right)) % 2 ^ 64 ∧
      17 % 2 ^ 64
        = (1 + (left_weight + added.m_left) + (right_weight + added.m_right)) % 2 ^ 64 :=
  effective_weight_is_balanced_total 1 [("c", ⟨.mass 2, .mass 8⟩)] "c" [] [("c", ⟨6, 0⟩)] 17
    (by decide)

/-! ## Reading the pan tokens of a line -/

/-- How a pan token is read, by its first character. -/
theorem read_pan_eq (line : String) (t : LinkTracker) (tok : String) :
    read_pan line t tok =
      if starts_with_digit tok then
        (if decimal_value (tok.data.takeWhile isdigit) < WORD then .ok (token_pan tok, t)
         else .error .outOfRange)
      else if is_reference tok then .ok (token_pan tok, tracker_update decrement t tok)
      else .error (.invalidMassOrScaleName line) := by
  unfold read_pan starts_with_digit is_reference token_pan starts_with_digit
  cases hd : tok.data with
  | nil => simp
  | cons c cs =>
    simp only []
    by_cases h1 : isdigit c = true
    · simp only [h1, if_true, stoull, hd]
      by_cases hv : decimal_value (List.takeWhile isdigit (c :: cs)) < WORD
      · simp only [hv, if_true]
      · simp only [hv, if_false]
    · simp only [h1, if_false, Bool.false_eq_true]

theorem is_mass_in_range_iff (tok : String) :
    is_mass_in_range tok = true ↔
      starts_with_digit tok = true ∧ decimal_value (tok.data.takeWhile isdigit) < WORD := by
  unfold is_mass_in_range starts_with_digit
  cases tok.data with
  | nil => simp
  | cons c cs => simp

theorem not_digit_of_reference (tok : String) (h : is_reference tok = true) :
    starts_with_digit tok = false := by
  unfold is_reference at h
  unfold starts_with_digit
  cases hd : tok.data with
  | nil => rfl
  | cons c cs =>
    rw [hd] at h
    simp only [] at h ⊢
    cases hc : isdigit c with
    | false => rfl
    | true => rw [isalpha_of_isdigit c hc] at h; exact absurd h (by simp)

/-- The loop body on a line with three fields: the two pan tokens are read in turn,
then the scale is inserted. -/
theorem process_line_three (st : ParseState) (line nm ls rs : String)
    (hf : fields line = [nm, ls, rs]) :
    process_line st line =
      match read_pan (replace_commas line)
          (tracker_update increment st.scale_link_tracker nm) ls with
      | .error e => .error e
      | .ok (left, tracker2) =>
        match read_pan (replace_commas line) tracker2 rs with
        | .error e => .error e
        | .ok (right, tracker3) =>
          match emplace st.scale_map nm ⟨left, right⟩ with
          | none => .error (.duplicateScaleName nm)
          | some scale_map => .ok ⟨scale_map, tracker3⟩ := by
  obtain ⟨hs, rest1, rest2, rest3, h1, h2, h3⟩ := fields_three line nm ls rs hf
  unfold process_line
  simp only [hs, Bool.false_eq_true, if_false, h1, h2, h3]

/-- The parser on an input whose lines before a given line are read without error. -/
theorem parse_input_file_at_line (pre post : List String) (line : String) (st : ParseState)
    (hpre : parse_lines ⟨[], []⟩ pre = .ok st) :
    parse_input_file (pre ++ line :: post) =
      match process_line st line with
      | .error e => .error e
      | .ok st1 =>
        match parse_lines st1 post with
        | .error e => .error e
        | .ok st2 => find_root st2 := by
  unfold parse_input_file
  rw [parse_lines_append, hpre]
  simp only [parse_lines]
  cases process_line st line with
  | error e => rfl
  | ok st1 => rfl

theorem find_append_of_some {β : Type} (m ext : List (ScaleName × β)) (k : ScaleName) (v : β)
    (h : find m k = some v) : find (m ++ ext) k = some v := by
  induction m with
  | nil => simp [find] at h
  | cons e rest ih =>
    obtain ⟨k0, w⟩ := e
    simp only [List.cons_append, find] at h ⊢
    split
    · rename_i hk
      rw [if_pos hk] at h
      exact h
    · rename_i hk
      rw [if_neg hk] at h
      exact ih h

theorem find_append_new {β : Type} (m : List (ScaleName × β)) (k : ScaleName) (v : β)
    (h : k ∉ keys m) : find (m ++ [(k, v)]) k = some v := by
  induction m with
  | nil => simp [find]
  | cons e rest ih =>
    obtain ⟨k0, w⟩ := e
    simp only [keys, List.map_cons, List.mem_cons, not_or] at h
    simp only [List.cons_append, find, if_neg (Ne.symm h.1)]
    exact ih h.2

/-- The loop never changes an entry of the scale map. -/
theorem parse_lines_keeps_entries (lines : List String) :
    ∀ (st st' : ParseState), parse_lines st lines = .ok st' →
      ∀ k d, find st.scale_map k = some d → find st'.scale_map k = some d := by
  induction lines with
  | nil =>
    intro st st' h k d hk
    simp only [parse_lines, Except.ok.injEq] at h
    subst h
    exact hk
  | cons line rest ih =>
    intro st st' h k d hk
    simp only [parse_lines] at h
    split at h
    · exact absurd h (by simp)
    · rename_i st1 h1
      apply ih st1 st' h k d
      rcases process_line_ok st st1 line h1 with ⟨-, -, rfl⟩ | ⟨-, nm, ls, rs, l, r, t2, -, -, -, he⟩
      · exact hk
      · rw [(emplace_some _ _ _ _ he).2]
        exact find_append_of_some _ _ k d hk

/-- In an accepted input, a line with three fields is stored under its name with the
pans that its two pan tokens denote, and both tokens are a mass in range or a
reference. -/
theorem accepted_line_entry (pre post : List String) (line nm ls rs : String)
    (st : ParseState) (hpre : parse_lines ⟨[], []⟩ pre = .ok st)
    (hf : fields line = [nm, ls, rs]) (sm : ScaleMap) (root : ScaleName)
    (hacc : parse_input_file (pre ++ line :: post) = .ok (sm, root)) :
    find sm nm = some ⟨token_pan ls, token_pan rs⟩ ∧
    (is_mass_in_range ls = true ∨ is_reference ls = true) ∧
    (is_mass_in_range rs = true ∨ is_reference rs = true) := by
  obtain ⟨t, hp, -, -⟩ := parse_input_file_ok _ sm root hacc
  rw [parse_lines_append, hpre] at hp
  simp only [parse_lines] at hp
  split at hp
  · exact absurd hp (by simp)
  · rename_i st1 h1
    have h1' := h1
    rw [process_line_three st line nm ls rs hf] at h1'
    split at h1'
    · exact absurd h1' (by simp)
    · rename_i l t2 hl
      split at h1'
      · exact absurd h1' (by simp)
      · rename_i r t3 hr
        split at h1'
        · exact absurd h1' (by simp)
        · rename_i sm1 he
          simp only [Except.ok.injEq] at h1'
          subst h1'
          obtain ⟨hnew, hsm1⟩ := emplace_some _ _ _ _ he
          have hl2 := (read_pan_ok _ _ _ _ _ hl).2.1
          have hr2 := (read_pan_ok _ _ _ _ _ hr).2.1
          have hl3 : l = token_pan ls := by
            rw [read_pan_eq] at hl
            split at hl
            · split at hl
              · simp only [Except.ok.injEq, Prod.mk.injEq] at hl; exact hl.1.symm
              · exact absurd hl (by simp)
            · split at hl
              · simp only [Except.ok.injEq, Prod.mk.injEq] at hl; exact hl.1.symm
              · exact absurd hl (by simp)
          have hr3 : r = token_pan rs := by
            rw [read_pan_eq] at hr
            split at hr
            · split at hr
              · simp only [Except.ok.injEq, Prod.mk.injEq] at hr; exact hr.1.symm
              · exact absurd hr (by simp)
            · split at hr
              · simp only [Except.ok.injEq, Prod.mk.injEq] at hr; exact hr.1.symm
              · exact absurd hr (by simp)
          subst hl3 hr3
          refine ⟨?_, hl2, hr2⟩
          apply parse_lines_keeps_entries post _ _ hp nm _
          show find sm1 nm = _
          rw [hsm1]
          exact find_append_new _ nm _ hnew

/-! ## Classification of the pan tokens -/

/-- C14, counterexample: the line `a 99999999999999999999 ?` has three tokens and its
second pan token starts with `?`, neither a digit nor a letter; the parser fails with
the out-of-range error of the first pan token, not with the
invalid-mass-or-scale-name error. -/
theorem invalid_token_after_overflow :
    fields "a 99999999999999999999 ?" = ["a", "99999999999999999999", "?"] ∧
    starts_with_digit "?" = false ∧ is_reference "?" = false ∧
    parse_input_file ["a 99999999999999999999 ?"] = .error .outOfRange ∧
    parse_input_file ["a 99999999999999999999 ?"]
      ≠ .error (.invalidMassOrScaleName "a 99999999999999999999 ?") := by
  refine ⟨by decide, by decide, by decide, rfl, ?_⟩
  intro h
  have h1 : parse_input_file ["a 99999999999999999999 ?"] = .error .outOfRange := rfl
  rw [h1] at h
  exact absurd h (by simp)

/-- C14, amended: on a declaration line with at least three tokens that the loop
reaches, each of the two pan tokens is classified by its first character alone. A
decimal digit makes the pan a mass, a letter makes the pan a reference whose name is
the entire token, and these are the pans stored when the input is accepted. A first
pan token that starts with any other character makes the parser fail with the
invalid-mass-or-scale-name error for that line; so does such a second pan token,
provided the first pan token is read (a mass in range or a reference). A first pan
token of digits that is out of range fails first, with the out-of-range error. -/
theorem pan_tokens_classified_by_first_character (pre post : List String)
    (line nm ls rs : String) (st : ParseState)
    (hpre : parse_lines ⟨[], []⟩ pre = .ok st) (hf : fields line = [nm, ls, rs]) :
    (∀ tok, (starts_with_digit tok = true → ∃ m, token_pan tok = .mass m) ∧
      (is_reference tok = true → token_pan tok = .scale tok)) ∧
    (∀ sm root, parse_input_file (pre ++ line :: post) = .ok (sm, root) →
      find sm nm = some ⟨token_pan ls, token_pan rs⟩) ∧
    (starts_with_digit ls = false → is_reference ls = false →
      parse_input_file (pre ++ line :: post)
        = .error (.invalidMassOrScaleName (replace_commas line))) ∧
    ((is_mass_in_range ls || is_reference ls) = true →
      starts_with_digit rs = false → is_reference rs = false →
      parse_input_file (pre ++ line :: post)
        = .error (.invalidMassOrScaleName (replace_commas line))) ∧
    (starts_with_digit ls = true → is_mass_in_range ls = false →
      parse_input_file (pre ++ line :: post) = .error .outOfRange) := by
  have hp := parse_input_file_at_line pre post line st hpre
  rw [process_line_three st line nm ls rs hf] at hp
  refine ⟨fun tok => ⟨fun h => ?_, fun h => ?_⟩, fun sm root hacc => ?_, ?_, ?_, ?_⟩
  · exact ⟨decimal_value (tok.data.takeWhile isdigit), by simp [token_pan, h]⟩
  · simp [token_pan, not_digit_of_reference tok h]
  · exact (accepted_line_entry pre post line nm ls rs st hpre hf sm root hacc).1
  · intro h1 h2
    rw [hp, read_pan_eq]
    simp only [h1, h2, Bool.false_eq_true, if_false]
  · intro h1 h2 h3
    obtain ⟨l, t2, hl⟩ := read_pan_of_well_formed (replace_commas line)
      (tracker_update increment st.scale_link_tracker nm) ls h1
    rw [hp, hl]
    simp only []
    rw [read_pan_eq]
    simp only [h2, h3, Bool.false_eq_true, if_false]
  · intro h1 h2
    have hv : ¬ decimal_value (ls.data.takeWhile isdigit) < WORD := by
      intro hv
      rw [(is_mass_in_range_iff ls).2 ⟨h1, hv⟩] at h2
      exact absurd h2 (by simp)
    rw [hp, read_pan_eq]
    simp only [h1, if_true, hv, if_false]

/-- The amended C14 on the single line `a ?x 5`, whose first pan token starts with
`?`, and on the accepted line `a 12 b` followed by `b 1 1`. -/
theorem pan_tokens_classified_by_first_character_witness :
    parse_input_file ([] ++ "a ?x 5" :: []) = .error (.invalidMassOrScaleName "a ?x 5") ∧
    find [("a", (⟨.mass 12, .scale "b"⟩ : ScaleDescription)), ("b", ⟨.mass 1, .mass 1⟩)] "a"
      = some ⟨token_pan "12", token_pan "b"⟩ :=
  ⟨(pan_tokens_classified_by_first_character [] [] "a ?x 5" "a" "?x" "5" ⟨[], []⟩ rfl
      (by decide)).2.2.1 (by decide) (by decide),
   (pan_tokens_classified_by_first_character [] ["b 1 1"] "a 12 b" "a" "12" "b" ⟨[], []⟩ rfl
      (by decide)).2.1 _ "a" rfl⟩

/-! ## Masses written in digits -/

/-- C15: on a line with three fields that the loop reaches, for a pan token made of
decimal digits: if its value is at most `2 ^ 64 - 1`, the token is read as the mass
of exactly that value and, when the input is accepted, that mass is the pan stored
for the scale; if its value exceeds `2 ^ 64 - 1`, the input is rejected. -/
theorem digit_token_mass_or_rejected (pre post : List String) (line nm ls rs : String)
    (st : ParseState) (hpre : parse_lines ⟨[], []⟩ pre = .ok st)
    (hf : fields line = [nm, ls, rs]) (side : Bool) (tok : String)
    (htok : tok = if side then rs else ls)
    (hne : tok.data ≠ []) (hdig : ∀ c ∈ tok.data, isdigit c = true) :
    (decimal_value tok.data ≤ 2 ^ 64 - 1 →
      (∀ t, read_pan (replace_commas line) t tok = .ok (.mass (decimal_value tok.data), t)) ∧
      ∀ sm root, parse_input_file (pre ++ line :: post) = .ok (sm, root) →
        ∃ d, find sm nm = some d ∧ side_pan d side = .mass (decimal_value tok.data)) ∧
    (2 ^ 64 - 1 < decimal_value tok.data →
      ∃ e, parse_input_file (pre ++ line :: post) = .error e) := by
  have hrun : tok.data.takeWhile isdigit = tok.data := by
    rw [List.takeWhile_eq_self_iff]
    exact hdig
  have hsd : starts_with_digit tok = true := by
    unfold starts_with_digit
    cases hd : tok.data with
    | nil => exact absurd hd hne
    | cons c cs => exact hdig c (by rw [hd]; exact List.mem_cons_self _ _)
  have hpan : token_pan tok = .mass (decimal_value tok.data) := by
    simp [token_pan, hsd, hrun]
  have hentry : ∀ sm root, parse_input_file (pre ++ line :: post) = .ok (sm, root) →
      (∃ d, find sm nm = some d ∧ side_pan d side = token_pan tok) ∧
      (is_mass_in_range tok = true ∨ is_reference tok = true) := by
    intro sm root hacc
    obtain ⟨h1, h2, h3⟩ := accepted_line_entry pre post line nm ls rs st hpre hf sm root hacc
    cases side with
    | false =>
      simp only [Bool.false_eq_true, if_false] at htok
      subst htok
      exact ⟨⟨_, h1, rfl⟩, h2⟩
    | true =>
      simp only [if_true] at htok
      subst htok
      exact ⟨⟨_, h1, rfl⟩, h3⟩
  constructor
  · intro hv
    have hv' : decimal_value (tok.data.takeWhile isdigit) < WORD := by
      rw [hrun, WORD]; omega
    refine ⟨fun t => ?_, fun sm root hacc => ?_⟩
    · rw [read_pan_eq]
      simp only [hsd, if_true, hv', hpan]
    · obtain ⟨⟨d, hd1, hd2⟩, -⟩ := hentry sm root hacc
      exact ⟨d, hd1, hd2.trans hpan⟩
  · intro hv
    cases hacc : parse_input_file (pre ++ line :: post) with
    | error e => exact ⟨e, rfl⟩
    | ok p =>
      obtain ⟨sm, root⟩ := p
      exfalso
      rcases (hentry sm root hacc).2 with h | h
      · have := ((is_mass_in_range_iff tok).1 h).2
        rw [hrun, WORD] at this
        omega
      · rw [not_digit_of_reference tok h] at hsd
        exact absurd hsd (by simp)

/-- C15 on the line `a 18446744073709551615 18446744073709551616`: the first pan token
is the largest mass, the second one is too large and the input is rejected. -/
theorem digit_token_mass_or_rejected_witness :
    (∀ t, read_pan (replace_commas "a 18446744073709551615 18446744073709551616") t
        "18446744073709551615"
      = .ok (.mass (decimal_value "18446744073709551615".data), t)) ∧
    decimal_value "18446744073709551615".data = 2 ^ 64 - 1 ∧
    ∃ e, parse_input_file ([] ++ "a 18446744073709551615 18446744073709551616" :: [])
      = .error e :=
  ⟨((digit_token_mass_or_rejected [] [] "a 18446744073709551615 18446744073709551616" "a"
      "18446744073709551615" "18446744073709551616" ⟨[], []⟩ rfl (by decide) false
      "18446744073709551615" rfl (by decide) (by decide)).1 (by decide)).1,
   by decide,
   (digit_token_mass_or_rejected [] [] "a 18446744073709551615 18446744073709551616" "a"
      "18446744073709551615" "18446744073709551616" ⟨[], []⟩ rfl (by decide) true
      "18446744073709551616" rfl (by decide) (by decide)).2 (by decide)⟩

/-! ## Masses followed by other characters -/

/-- C20: on a line with three fields that the loop reaches, a pan token that begins
with a decimal digit is read as a mass whatever follows its leading run of digits:
the mass is the value of that run, provided the value is at most `2 ^ 64 - 1`, and
it is the pan stored for the scale when the input is accepted. -/
theorem digit_led_token_is_its_leading_digits (pre post : List String)
    (line nm ls rs : String) (st : ParseState) (hpre : parse_lines ⟨[], []⟩ pre = .ok st)
    (hf : fields line = [nm, ls, rs]) (side : Bool) (tok : String)
    (htok : tok = if side then rs else ls) (hsd : starts_with_digit tok = true)
    (hv : decimal_value (tok.data.takeWhile isdigit) ≤ 2 ^ 64 - 1) :
    (∀ t, read_pan (replace_commas line) t tok
      = .ok (.mass (decimal_value (tok.data.takeWhile isdigit)), t)) ∧
    ∀ sm root, parse_input_file (pre ++ line :: post) = .ok (sm, root) →
      ∃ d, find sm nm = some d ∧
        side_pan d side = .mass (decimal_value (tok.data.takeWhile isdigit)) := by
  have hv' : decimal_value (tok.data.takeWhile isdigit) < WORD := by
    rw [WORD]; omega
  have hpan : token_pan tok = .mass (decimal_value (tok.data.takeWhile isdigit)) := by
    simp [token_pan, hsd]
  refine ⟨fun t => ?_, fun sm root hacc => ?_⟩
  · rw [read_pan_eq]
    simp only [hsd, if_true, hv', hpan]
  · obtain ⟨h1, -, -⟩ := accepted_line_entry pre post line nm ls rs st hpre hf sm root hacc
    refine ⟨_, h1, ?_⟩
    cases side with
    | false =>
      simp only [Bool.false_eq_true, if_false] at htok
      subst htok
      exact hpan
    | true =>
      simp only [if_true] at htok
      subst htok
      exact hpan

/-- C20 on the line `a 12abc 0x10`: the tokens `12abc` and `0x10` are stored as the
masses `12` and `0`. -/
theorem digit_led_token_is_its_leading_digits_witness :
    parse_input_file ([] ++ "a 12abc 0x10" :: []) = .ok ([("a", ⟨.mass 12, .mass 0⟩)], "a") ∧
    decimal_value ("12abc".data.takeWhile isdigit) = 12 ∧
    decimal_value ("0x10".data.takeWhile isdigit) = 0 ∧
    (∃ d, find [("a", (⟨.mass 12, .mass 0⟩ : ScaleDescription))] "a" = some d ∧
      side_pan d false = .mass (decimal_value ("12abc".data.takeWhile isdigit))) ∧
    (∃ d, find [("a", (⟨.mass 12, .mass 0⟩ : ScaleDescription))] "a" = some d ∧
      side_pan d true = .mass (decimal_value ("0x10".data.takeWhile isdigit))) :=
  ⟨rfl, by decide, by decide,
   (digit_led_token_is_its_leading_digits [] [] "a 12abc 0x10" "a" "12abc" "0x10" ⟨[], []⟩ rfl
      (by decide) false "12abc" rfl (by decide) (by decide)).2 _ "a" rfl,
   (digit_led_token_is_its_leading_digits [] [] "a 12abc 0x10" "a" "12abc" "0x10" ⟨[], []⟩ rfl
      (by decide) true "0x10" rfl (by decide) (by decide)).2 _ "a" rfl⟩

/-! ## The unsigned counters against the signed counters of the specification -/

theorem sameOutcome_error (e : Error) : SameOutcome (.error e) (.error e) := by
  cases e <;> simp [SameOutcome]

/-- C17: for every input with fewer than `2 ^ 64 - 1` pan references, the parser of the
code, whose counters are unsigned 64-bit values that wrap, and the parser that detects
the root with the signed counters of the specification have the same outcome: both
accept with the same map and the same root, or both fail with the same error, the
names of a multiple-ill-formed-scales error being the same up to their order. -/
theorem unsigned_counters_refine_signed (lines : List String)
    (hb : pan_references lines < 2 ^ 64 - 1) :
    SameOutcome (parse_input_file lines) (spec_parse_input_file lines) := by
  unfold parse_input_file spec_parse_input_file
  cases hst : parse_lines ⟨[], []⟩ lines with
  | error e => exact sameOutcome_error e
  | ok st =>
    simp only []
    by_cases hne : st.scale_map = []
    · have : find_root st = .error .noScaleTree := by
        unfold find_root
        rw [hne]
      rw [this, hne]
      exact sameOutcome_error _
    · obtain ⟨entry, rest, hsm⟩ := List.exists_cons_of_ne_nil hne
      have hspec : (match st.scale_map with
          | [] => Except.error Error.noScaleTree
          | _ :: _ => spec_find_root lines st.scale_map)
          = spec_find_root lines st.scale_map := by
        rw [hsm]
      rw [hspec]
      obtain ⟨hk, -, hok⟩ := parse_lines_state lines _ _ hst
      have hnd : (declared_names lines).Nodup := by
        have hk' : keys st.scale_map = declared_names lines := hk
        rw [← hk']
        exact (hok stateOK_init).1
      have hnz := nonzero_names_eq_wrapped lines hnd (by omega)
      unfold spec_find_root
      split
      · rename_i name hname
        rw [hnz] at hname
        obtain ⟨c, hill, hc⟩ := (single_ill_formed_iff lines st hst name).1 hname
        rw [find_root_single st hne name c hill]
        have hiff : c ≠ 1 ↔ net_counter lines name ≠ 1 := by
          have h1 := net_counter_mod_eq_one lines hnd hb name
          rw [← hc] at h1
          have h2 : ((c : Int) = 1) ↔ c = 1 := by exact_mod_cast Iff.rfl
          exact not_congr (h2.symm.trans h1)
        by_cases h1 : c ≠ 1
        · rw [if_pos h1, if_pos (hiff.1 h1)]
          simp [SameOutcome]
        · rw [if_neg h1, if_neg (fun h => h1 (hiff.2 h))]
          simp [SameOutcome]
      · rename_i hnot
        have hperm := ill_formed_perm_nonzero lines st hst
        rw [← hnz] at hperm
        have hlen : (ill_formed_scales st.scale_link_tracker).length ≠ 1 := by
          intro h1
          have h2 := hperm.length_eq
          simp only [keys, List.length_map] at h2
          rw [h1] at h2
          obtain ⟨n, hn⟩ := List.length_eq_one.1 h2.symm
          exact hnot n hn
        rw [find_root_multiple st hne hlen]
        simpa [SameOutcome] using hperm

/-- C17 on an accepted input, on an input with two roots, and on an input whose single
candidate is referenced twice. -/
theorem unsigned_counters_refine_signed_witness :
    pan_references ["a b c", "b 5 5", "c 2 8"] < 2 ^ 64 - 1 ∧
    SameOutcome (parse_input_file ["a b c", "b 5 5", "c 2 8"])
      (spec_parse_input_file ["a b c", "b 5 5", "c 2 8"]) ∧
    SameOutcome (parse_input_file ["a 1 2", "b 3 4"]) (spec_parse_input_file ["a 1 2", "b 3 4"]) ∧
    SameOutcome (parse_input_file ["r a a", "a r 1"]) (spec_parse_input_file ["r a a", "a r 1"]) :=
  ⟨by decide, unsigned_counters_refine_signed _ (by decide),
    unsigned_counters_refine_signed _ (by decide),
    unsigned_counters_refine_signed _ (by decide)⟩

end BalancingScale
